import Mathlib

/-!
Verification of the raxtax classification engine against its specification.

The Rust source is shallowly embedded as follows.

* Machine integers (`u16`, `u64`, `usize`) become `ℕ`; the one place where
  `u16` overflow is possible (`sequence_to_kmers`, which shifts into a `u16`
  accumulator) takes an explicit `% 2 ^ 16`.
* `f64` values are modelled by exact rationals `ℚ`.  The probability engine
  (`src/prob.rs`) works in log space purely for numerical stability: every
  quantity it manipulates is the natural log of a nonnegative rational, logs
  are only ever added/subtracted where the source multiplies/divides the
  underlying values, and the result is exponentiated at the end.  The
  embedding therefore tracks the underlying values themselves: a source
  variable holding `ln x` is embedded as `x`, `+`/`-` on logs become `*`/`/`,
  `exp`/`ln` become the identity, and the sentinel `f64::NEG_INFINITY`
  (`ln 0`) becomes `0`.  The guards `c == f64::NEG_INFINITY` in the source
  become `c = 0` here.
* Rust strings are embedded as `List Char` (Rust's byte-lexicographic `Ord`
  on strings agrees with the character-lexicographic order on the ASCII
  inputs this program handles).
* Fallible code (`assert!`, panicking indexing, `unwrap`) is embedded with
  `Option`: `none` models a panic.
* Hash maps are embedded extensionally (as functions or as `dedup`/`count`
  over the underlying list); all folds over them in the source compute
  commutative sums/products, so iteration order is irrelevant.
-/

/-! # Probability engine: `src/prob.rs` -/

/-- Closed-form probability mass function, from the `pmf` reference
implementation in the test module of `src/prob.rs` (and §4.3 of the spec):
`pmf(total, i, T, s) = C(s+i−1, i) · C(total−s+T−i−1, T−i) / C(total+T−1, T)`
with the boundary rules for `s = total` and `s = 0`.  The source computes the
binomials as log-gammas and exponentiates; the embedding uses the exact
rational value. -/
def pmf (total i num_trials s : ℕ) : ℚ :=
  if s = total then (if i = num_trials then 1 else 0)
  else if s = 0 then (if i = 0 then 1 else 0)
  else (Nat.choose (s + i - 1) i : ℚ) *
      (Nat.choose (total - s + (num_trials - i) - 1) (num_trials - i) : ℚ) /
      (Nat.choose (total + num_trials - 1) num_trials : ℚ)

/-- Running product embedded from the `num_possible_matches` scan of
`iterative_pmfs_ln` in `src/prob.rs`: the source accumulates
`Σ_{j=1..i} ln((s + j − 1) / j)`; its exact-value semantics is the product
`Π_{j=1..i} (s + j − 1) / j`, accumulated by the same recurrence. -/
def num_possible_matches (s : ℕ) : ℕ → ℚ
  | 0 => 1
  | i + 1 => num_possible_matches s i * ((s + i : ℕ) : ℚ) / ((i + 1 : ℕ) : ℚ)

/-- Running value embedded from the `num_impossible_matches` scan of
`iterative_pmfs_ln` in `src/prob.rs`: starting from
`impossible_init = C(total−s+T−1, T)` the source subtracts
`ln((total−s+T−i) / (T−i+1))` at step `i`; its exact-value semantics divides
by that factor.  The source materialises only steps `1..T−1` of this
recurrence and chains a final `exp 0 = 1`; at `i = T` the recurrence below
yields that same `1`, so one uniform recurrence suffices. -/
def num_impossible_matches (total num_trials s : ℕ) : ℕ → ℚ
  | 0 => (Nat.choose (total - s + num_trials - 1) num_trials : ℚ)
  | i + 1 => num_impossible_matches total num_trials s i /
      (((total - s + num_trials - (i + 1) : ℕ) : ℚ) / ((num_trials - (i + 1) + 1 : ℕ) : ℚ))

/-- The pmf vector built by the successful runs of `iterative_pmfs_ln` in
`src/prob.rs` for one intersection class `s`.  In the two boundary branches
the source builds a vector of `NEG_INFINITY` with a single `0.0` (log)
entry, i.e. a vector of `0`s with a single `1`; in the general branch the
head is `impossible_init / num_possible_kmer_sets` and entries `1..T` come
from zipping the two scans.  Result entry `i` is the (exact-value) pmf at
`i`. -/
def iterative_pmfs_vec (total num_trials s : ℕ) (num_possible_kmer_sets : ℚ) : List ℚ :=
  if s = total then
    (List.replicate (num_trials + 1) (0 : ℚ)).set num_trials 1
  else if s = 0 then
    (List.replicate (num_trials + 1) (0 : ℚ)).set 0 1
  else
    (num_impossible_matches total num_trials s 0 / num_possible_kmer_sets) ::
      (List.range num_trials).map (fun j =>
        num_possible_matches s (j + 1) * num_impossible_matches total num_trials s (j + 1) /
          num_possible_kmer_sets)

/-- Embedding of `iterative_pmfs_ln` from `src/prob.rs` for one intersection
class `s` (the source maps this body over the distinct intersection sizes).
`num_possible_kmer_sets` is the caller-supplied value of
`C(total + T − 1, T)` (the source passes its log).  In the general branch
(`0 < s < total`) the source zips the `num_possible_matches` scan over
`1..=num_trials` (`num_trials` entries) against the `num_impossible_matches`
scan over `1..num_trials` chained with a final `0.0`
(`num_trials − 1 + 1` entries) using `itertools::zip_eq`, which panics on a
length mismatch: at `num_trials = 0` the first iterator is empty while the
second still has its one chained entry, so the source panics when the vector
is collected; `none` models that panic.  The two boundary branches build
their vectors directly and never panic. -/
def iterative_pmfs_ln (total num_trials s : ℕ) (num_possible_kmer_sets : ℚ) :
    Option (List ℚ) :=
  if s = total then some (iterative_pmfs_vec total num_trials s num_possible_kmer_sets)
  else if s = 0 then some (iterative_pmfs_vec total num_trials s num_possible_kmer_sets)
  else if num_trials = 0 then none
  else some (iterative_pmfs_vec total num_trials s num_possible_kmer_sets)

/-- Embedding of `only_last_pmf` from `src/prob.rs` (fast path): the source
returns `exp(ln C(s+T−1, T) − ln C(total+T−1, T))` with early returns `1.0`
for `s = total` and `0.0` for `s = 0`. -/
def only_last_pmf (total num_trials s : ℕ) (num_possible_kmer_sets : ℚ) : ℚ :=
  if s = total then 1
  else if s = 0 then 0
  else (Nat.choose (s + num_trials - 1) num_trials : ℚ) / num_possible_kmer_sets

/-- Embedding of the per-class CDF accumulation in
`highest_hit_prob_per_reference`: the source scans the logged pmf vector,
adding `exp` of each non-`NEG_INFINITY` entry to a linear-space running sum
(adding `0` for the `NEG_INFINITY` entries, which is the same thing in exact
arithmetic) and storing the log of the sum; the exact-value semantics is the
list of partial sums. -/
def cmf_of (pmfs : List ℚ) : List ℚ :=
  (List.scanl (· + ·) 0 pmfs).tail

/-- Embedding of the general branch of `highest_hit_prob_per_reference` in
`src/prob.rs`, as a function of the intersection class `s`.  `classes` stands
for the key set of the source's `intersection_size_counts` hash map
(`sizes.dedup`), and `sizes.count t` for the multiplicity stored under key
`t`.  `cmf_prod_components i` is `Π_t F_t(i)^count[t]` (the source computes
`Σ_t count[t]·ln F_t(i)`); a contribution is dropped (`0`) when the source's
guard `c == NEG_INFINITY || prod_components == NEG_INFINITY` fires, i.e.
when `F_s(i) = 0` or the product is `0`. -/
def general_class_value (total num_trials : ℕ) (sizes : List ℕ) (s : ℕ) : ℚ :=
  let num_possible_kmer_sets : ℚ := (Nat.choose (total + num_trials - 1) num_trials : ℚ)
  let cmf := cmf_of (iterative_pmfs_vec total num_trials s num_possible_kmer_sets)
  let pmfs := iterative_pmfs_vec total num_trials s num_possible_kmer_sets
  let cmf_prod_components : ℕ → ℚ := fun i =>
    (sizes.dedup.map (fun t =>
      (cmf_of (iterative_pmfs_vec total num_trials t num_possible_kmer_sets)).getD i 0 ^
        sizes.count t)).prod
  ((List.range (num_trials + 1)).map (fun i =>
    if cmf.getD i 0 = 0 ∨ cmf_prod_components i = 0 then 0
    else pmfs.getD i 0 * cmf_prod_components i / cmf.getD i 0)).sum

/-- Unnormalized per-reference hit probabilities: the body of
`highest_hit_prob_per_reference` in `src/prob.rs` before the final
normalization.  The fast-path branch fires when any reference's intersection
size equals `total` and never calls `iterative_pmfs_ln`; the general branch
first materialises `iterative_pmfs_ln` for every distinct intersection size
and therefore panics (`none`) whenever any class panics (the `zip_eq` length
mismatch at `num_trials = 0`); otherwise each reference's value is the value
computed for its intersection class. -/
def unnormalized_probs (total num_trials : ℕ) (sizes : List ℕ) : Option (List ℚ) :=
  let num_possible_kmer_sets : ℚ := (Nat.choose (total + num_trials - 1) num_trials : ℚ)
  if total ∈ sizes then
    some (sizes.map (fun s => only_last_pmf total num_trials s num_possible_kmer_sets))
  else if sizes.dedup.all
      (fun t => (iterative_pmfs_ln total num_trials t num_possible_kmer_sets).isSome) then
    some (sizes.map (general_class_value total num_trials sizes))
  else none

/-- Embedding of `highest_hit_prob_per_reference` from `src/prob.rs`:
computes the unnormalized class values (propagating the `iterative_pmfs_ln`
panic), asserts `probs_sum > 0.0` (`none` models the panic), and divides
every entry by the sum. -/
def highest_hit_prob_per_reference (total num_trials : ℕ) (sizes : List ℕ) :
    Option (List ℚ) :=
  match unnormalized_probs total num_trials sizes with
  | none => none
  | some probs => if 0 < probs.sum then some (probs.map (· / probs.sum)) else none

/-! ## Arithmetic helper lemmas -/

lemma sum_map_div (l : List ℚ) (c : ℚ) : (l.map (· / c)).sum = l.sum / c := by
  induction l with
  | nil => simp
  | cons x xs ih => simp [ih, add_div]

lemma num_possible_matches_eq (s : ℕ) (hs : 1 ≤ s) :
    ∀ i, num_possible_matches s i = (Nat.choose (s + i - 1) i : ℚ) := by
  intro i
  induction i with
  | zero => simp [num_possible_matches]
  | succ i ih =>
    have hsi : s + i - 1 + 1 = s + i := by omega
    have hkey : (s + i) * Nat.choose (s + i - 1) i = Nat.choose (s + i) (i + 1) * (i + 1) := by
      have h := Nat.succ_mul_choose_eq (s + i - 1) i
      rwa [Nat.succ_eq_add_one, hsi] at h
    have hcast : ((s + i : ℕ) : ℚ) * (Nat.choose (s + i - 1) i : ℚ) =
        (Nat.choose (s + i) (i + 1) : ℚ) * ((i + 1 : ℕ) : ℚ) := by
      exact_mod_cast hkey
    have hne : ((i + 1 : ℕ) : ℚ) ≠ 0 := by positivity
    have hgoal : s + (i + 1) - 1 = s + i := by omega
    rw [num_possible_matches, ih, hgoal, div_eq_iff hne]
    linear_combination hcast

lemma num_impossible_matches_eq (total num_trials s : ℕ) (h1 : 1 ≤ s) (h2 : s < total) :
    ∀ i, i ≤ num_trials →
      num_impossible_matches total num_trials s i =
        (Nat.choose (total - s + (num_trials - i) - 1) (num_trials - i) : ℚ) := by
  intro i
  induction i with
  | zero => intro _; simp [num_impossible_matches]
  | succ i ih =>
    intro hi
    have hiT : i ≤ num_trials := by omega
    obtain ⟨m, hm⟩ : ∃ m, total - s = m + 1 := ⟨total - s - 1, by omega⟩
    obtain ⟨j, hj⟩ : ∃ j, num_trials - (i + 1) = j := ⟨num_trials - (i + 1), rfl⟩
    have hTi : num_trials - i = j + 1 := by omega
    -- the recurrence factor
    have hfac1 : total - s + num_trials - (i + 1) = m + 1 + j := by omega
    have hfac2 : num_trials - (i + 1) + 1 = j + 1 := by omega
    -- the inductive value
    have hprev : total - s + (num_trials - i) - 1 = m + 1 + j := by omega
    -- target index
    have htgt : total - s + (num_trials - (i + 1)) - 1 = m + j := by omega
    have hkey : (m + 1 + j) * Nat.choose (m + j) j = Nat.choose (m + 1 + j) (j + 1) * (j + 1) := by
      have h := Nat.succ_mul_choose_eq (m + j) j
      rw [Nat.succ_eq_add_one] at h
      have : m + j + 1 = m + 1 + j := by omega
      rwa [this] at h
    have hcast : ((m + 1 + j : ℕ) : ℚ) * (Nat.choose (m + j) j : ℚ) =
        (Nat.choose (m + 1 + j) (j + 1) : ℚ) * ((j + 1 : ℕ) : ℚ) := by
      exact_mod_cast hkey
    have hmj : ((m + 1 + j : ℕ) : ℚ) ≠ 0 := by positivity
    rw [num_impossible_matches, ih hiT, hprev, hTi, hfac1, hfac2, htgt, hj]
    rw [div_div_eq_mul_div, div_eq_iff hmj]
    linear_combination -hcast

lemma iterative_pmfs_vec_length (total num_trials s : ℕ) (D : ℚ) :
    (iterative_pmfs_vec total num_trials s D).length = num_trials + 1 := by
  unfold iterative_pmfs_vec
  split <;> [simp; skip]
  split <;> simp

lemma iterative_pmfs_ln_some (total num_trials s : ℕ) (D : ℚ)
    (h : s = total ∨ s = 0 ∨ 1 ≤ num_trials) :
    iterative_pmfs_ln total num_trials s D =
      some (iterative_pmfs_vec total num_trials s D) := by
  unfold iterative_pmfs_ln
  rcases h with h | h | h
  · rw [if_pos h]
  · by_cases hst : s = total
    · rw [if_pos hst]
    · rw [if_neg hst, if_pos h]
  · by_cases hst : s = total
    · rw [if_pos hst]
    · rw [if_neg hst]
      by_cases hs0 : s = 0
      · rw [if_pos hs0]
      · rw [if_neg hs0, if_neg (by omega : ¬ num_trials = 0)]

lemma iterative_pmfs_vec_getD (total num_trials s : ℕ) (h1 : 0 < s) (h2 : s < total) :
    ∀ i ≤ num_trials,
      (iterative_pmfs_vec total num_trials s
          ((Nat.choose (total + num_trials - 1) num_trials : ℚ))).getD i 0 =
        pmf total i num_trials s := by
  intro i hi
  have hs : ¬ s = total := by omega
  have hs0 : ¬ s = 0 := by omega
  unfold iterative_pmfs_vec pmf
  rw [if_neg hs, if_neg hs0, if_neg hs, if_neg hs0]
  rcases i with _ | j
  · -- head entry: `impossible_init / D`
    simp only [List.getD_cons_zero, num_impossible_matches, Nat.sub_zero,
      Nat.choose_zero_right, Nat.cast_one, one_mul]
  · -- entries 1..T come from the mapped range
    have hj : j < num_trials := by omega
    simp only [List.getD_cons_succ]
    rw [List.getD_eq_getElem?_getD, List.getElem?_map, List.getElem?_range hj]
    simp only [Option.map_some', Option.getD_some]
    rw [num_possible_matches_eq s (by omega) (j + 1),
      num_impossible_matches_eq total num_trials s (by omega) h2 (j + 1) (by omega)]

/-- C3 counterexample: at `num_trials = 0` with `0 < s < total` the source
panics — `zip_eq` pairs the empty `(1..=0)` possible-matches scan against the
one-entry chained impossible-matches iterator — so the computation produces
no vector at all, while the claim asserts it produces the closed-form value
at every `i ∈ [0..0]`; concretely `iterative_pmfs_ln 5 0 3 C(4,0) = none`
although the claimed closed-form value `pmf 5 0 0 3 = 1` exists. -/
theorem iterative_pmfs_zero_trials_counterexample :
    iterative_pmfs_ln 5 0 3 ((Nat.choose 4 0 : ℚ)) = none ∧ pmf 5 0 0 3 = 1 := by
  constructor
  · rfl
  · norm_num [pmf, Nat.choose]

/-- C3 (amended): for every `total`, `T ≥ 1` and intersection size
`0 < s < total`, the log-space iterative pmf computation of
`iterative_pmfs_ln` succeeds and produces, at every index `i ∈ [0..T]`,
exactly the closed-form
`pmf(total, i, T, s) = C(s+i−1, i)·C(total−s+T−i−1, T−i)/C(total+T−1, T)`
(the source produces its log), the vector having the full length `T + 1`
(at `T = 0` the source instead panics on the `zip_eq` length mismatch);
in particular `pmf(total := 200, i := 31, T := 32, s := 199)` is `0.119857`
to within `1e-6`. -/
theorem iterative_pmfs_match_closed_form :
    (∀ total num_trials s, 0 < s → s < total → 1 ≤ num_trials →
      ∃ pmfs, iterative_pmfs_ln total num_trials s
          ((Nat.choose (total + num_trials - 1) num_trials : ℚ)) = some pmfs ∧
        pmfs.length = num_trials + 1 ∧
        ∀ i ≤ num_trials, pmfs.getD i 0 = pmf total i num_trials s) ∧
    |pmf 200 31 32 199 - 119857 / 1000000| < 1 / 1000000 := by
  constructor
  · intro total num_trials s h1 h2 hT
    exact ⟨iterative_pmfs_vec total num_trials s
        ((Nat.choose (total + num_trials - 1) num_trials : ℚ)),
      iterative_pmfs_ln_some total num_trials s _ (Or.inr (Or.inr hT)),
      iterative_pmfs_vec_length _ _ _ _,
      iterative_pmfs_vec_getD total num_trials s h1 h2⟩
  · -- Scenario D: pmf(200, 31, 32, 199) = C(229,31)·C(1,1)/C(231,32) = 6368/53130
    have h230 : Nat.choose 229 31 * 230 = Nat.choose 230 31 * 199 := by
      have h := Nat.choose_mul_succ_eq 229 31
      norm_num at h
      exact h
    have h231 : 231 * Nat.choose 230 31 = Nat.choose 231 32 * 32 := by
      have h := Nat.succ_mul_choose_eq 230 31
      norm_num [Nat.succ_eq_add_one] at h
      exact_mod_cast h
    have hpos231 : 0 < Nat.choose 231 32 := Nat.choose_pos (by norm_num)
    have hval : pmf 200 31 32 199 = 3184 / 26565 := by
      unfold pmf
      have e1 : (Nat.choose 229 31 : ℚ) * 230 = (Nat.choose 230 31 : ℚ) * 199 := by
        exact_mod_cast h230
      have e2 : 231 * (Nat.choose 230 31 : ℚ) = (Nat.choose 231 32 : ℚ) * 32 := by
        exact_mod_cast h231
      have hq : (0 : ℚ) < (Nat.choose 231 32 : ℚ) := by exact_mod_cast hpos231
      norm_num [Nat.choose_self]
      rw [div_eq_div_iff (ne_of_gt hq) (by norm_num : (26565 : ℚ) ≠ 0)]
      linear_combination (231 * e1 + 199 * e2) / 2
    rw [hval, abs_lt]
    norm_num

/-- C3 witness: the generic part of the amended theorem instantiated at
`total = 4, T = 2, s = 1`, with the vector's entry at `i = 1` matching the
closed form. -/
theorem iterative_pmfs_match_closed_form_witness :
    0 < 1 ∧ 1 < 4 ∧ 1 ≤ 2 ∧
      ∃ pmfs, iterative_pmfs_ln 4 2 1 ((Nat.choose 5 2 : ℚ)) = some pmfs ∧
        pmfs.length = 3 ∧ pmfs.getD 1 0 = pmf 4 1 2 1 := by
  refine ⟨Nat.one_pos, by norm_num, by norm_num, ?_⟩
  obtain ⟨pmfs, h1, h2, h3⟩ :=
    iterative_pmfs_match_closed_form.1 4 2 1 Nat.one_pos (by norm_num) (by norm_num)
  have h1' : iterative_pmfs_ln 4 2 1 ((Nat.choose 5 2 : ℚ)) = some pmfs := by
    have : ((Nat.choose (4 + 2 - 1) 2 : ℕ) : ℚ) = ((Nat.choose 5 2 : ℕ) : ℚ) := by norm_num
    rw [← this]
    exact h1
  exact ⟨pmfs, h1', by rw [h2], h3 1 (by norm_num)⟩

/-- C1: whenever `highest_hit_prob_per_reference` returns (i.e. the
`assert!(probs_sum > 0.0)` passes) on a non-empty intersection-size vector
whose entries are at most the total 8-mer count, the returned vector has the
same length as the input (one entry per reference, `num_tips` of them) and
its entries sum to exactly `1` (the source's `± 1e-7` slack only absorbs
floating-point error), the sum being enforced by the final division by
`probs_sum`. -/
lemma unnormalized_probs_length (total num_trials : ℕ) (sizes : List ℕ)
    (probs : List ℚ) (h : unnormalized_probs total num_trials sizes = some probs) :
    probs.length = sizes.length := by
  unfold unnormalized_probs at h
  dsimp only at h
  split at h
  · obtain rfl := Option.some.inj h
    simp
  · split at h
    · obtain rfl := Option.some.inj h
      simp
    · simp at h

theorem highest_hit_prob_sums_to_one (total num_trials : ℕ) (sizes : List ℕ)
    (v : List ℚ) (hne : sizes ≠ []) (hle : ∀ s ∈ sizes, s ≤ total)
    (hv : highest_hit_prob_per_reference total num_trials sizes = some v) :
    v.length = sizes.length ∧ v.sum = 1 := by
  unfold highest_hit_prob_per_reference at hv
  rcases hu : unnormalized_probs total num_trials sizes with _ | probs
  · rw [hu] at hv
    simp at hv
  · rw [hu] at hv
    dsimp only at hv
    by_cases hpos : 0 < probs.sum
    · rw [if_pos hpos] at hv
      obtain rfl : probs.map (· / probs.sum) = v := Option.some.inj hv
      constructor
      · rw [List.length_map]
        exact unnormalized_probs_length total num_trials sizes probs hu
      · rw [sum_map_div]
        exact div_self (ne_of_gt hpos)
    · rw [if_neg hpos] at hv
      exact absurd hv (by simp)

/-- C1 witness: `highest_hit_prob_per_reference` on `total = 4`, `T = 2`,
`sizes = [1, 2]` returns `[49/133, 84/133]`, which has length `2` and sums
to `1`. -/
theorem highest_hit_prob_sums_to_one_witness :
    highest_hit_prob_per_reference 4 2 [1, 2] = some [49/133, 84/133] ∧
      ([(49 : ℚ)/133, 84/133]).length = ([1, 2] : List ℕ).length ∧
      ([(49 : ℚ)/133, 84/133]).sum = 1 := by
  have h : highest_hit_prob_per_reference 4 2 [1, 2] = some [49/133, 84/133] := by
    norm_num [highest_hit_prob_per_reference, unnormalized_probs, general_class_value,
      iterative_pmfs_ln, iterative_pmfs_vec, cmf_of, num_possible_matches,
      num_impossible_matches, List.range_succ, List.dedup, List.count_cons, Nat.choose,
      List.scanl, List.all]
  refine ⟨h, ?_, ?_⟩
  · exact (highest_hit_prob_sums_to_one 4 2 [1, 2] _ (by simp) (by norm_num) h).1
  · exact (highest_hit_prob_sums_to_one 4 2 [1, 2] _ (by simp) (by norm_num) h).2

/-- C4 counterexample: with `total = 2`, `T = 1` and intersection sizes
`[2, 1]` the fast path fires (reference 0 has intersection `2 = total`), and
the reference with intersection `1 ≠ total` receives unnormalized hit
probability `1/2`, not `0` — refuting the claim that the value is `0` for
every reference whose intersection size differs from `total`. -/
theorem fast_path_counterexample :
    (2 : ℕ) ∈ [2, 1] ∧ unnormalized_probs 2 1 [2, 1] = some [1, 1/2] ∧
      (1 : ℕ) ≠ 2 ∧ ((1 : ℚ)/2) ≠ 0 := by
  refine ⟨by simp, ?_, by norm_num, by norm_num⟩
  norm_num [unnormalized_probs, only_last_pmf, Nat.choose]

/-- C4 (amended): in the fast path (some reference has intersection size
equal to `total`, at least one trial, sizes at most `total`), every
reference's unnormalized hit probability equals the last-draw pmf
`pmf(total, T, T, s)`, and that value is `0` precisely for the references
with intersection size `0` (not for every `s ≠ total`: for `0 < s < total`
it is `C(s+T−1, T)/C(total+T−1, T) > 0`). -/
theorem fast_path_collapses_to_last_pmf (total num_trials : ℕ) (sizes : List ℕ)
    (hmem : total ∈ sizes) (hT : 1 ≤ num_trials) (htot : 1 ≤ total)
    (hle : ∀ s ∈ sizes, s ≤ total) :
    unnormalized_probs total num_trials sizes =
      some (sizes.map (fun s => pmf total num_trials num_trials s)) ∧
    ∀ s ∈ sizes, (pmf total num_trials num_trials s = 0 ↔ s = 0) := by
  constructor
  · unfold unnormalized_probs
    rw [if_pos hmem]
    refine congrArg some ?_
    apply List.map_congr_left
    intro s _
    unfold only_last_pmf pmf
    by_cases hst : s = total
    · simp [hst]
    · rw [if_neg hst, if_neg hst]
      by_cases hs0 : s = 0
      · rw [if_pos hs0, if_pos hs0, if_neg (by omega : ¬ num_trials = 0)]
      · rw [if_neg hs0, if_neg hs0]
        simp [Nat.sub_self, Nat.choose_zero_right]
  · intro s _
    unfold pmf
    by_cases hst : s = total
    · simp only [hst, if_pos rfl, ite_self]
      simp
      omega
    · rw [if_neg hst]
      by_cases hs0 : s = 0
      · rw [if_pos hs0, if_neg (by omega : ¬ num_trials = 0)]
        simp [hs0]
      · rw [if_neg hs0]
        have hnum : 0 < Nat.choose (s + num_trials - 1) num_trials :=
          Nat.choose_pos (by omega)
        have hden : 0 < Nat.choose (total + num_trials - 1) num_trials :=
          Nat.choose_pos (by omega)
        have h2 : 0 < Nat.choose (total - s + (num_trials - num_trials) - 1)
            (num_trials - num_trials) := by
          simp [Nat.sub_self, Nat.choose_zero_right]
        constructor
        · intro h
          exfalso
          have hq : (0 : ℚ) <
              (Nat.choose (s + num_trials - 1) num_trials : ℚ) *
                (Nat.choose (total - s + (num_trials - num_trials) - 1)
                  (num_trials - num_trials) : ℚ) /
                (Nat.choose (total + num_trials - 1) num_trials : ℚ) := by
            apply div_pos
            · exact mul_pos (by exact_mod_cast hnum) (by exact_mod_cast h2)
            · exact_mod_cast hden
          rw [h] at hq
          exact lt_irrefl 0 hq
        · intro h
          exact absurd h hs0

/-- C4 witness: the amended fast-path theorem instantiated at `total = 2`,
`T = 1`, `sizes = [2, 1]`. -/
theorem fast_path_collapses_to_last_pmf_witness :
    unnormalized_probs 2 1 [2, 1] = some ([2, 1].map (fun s => pmf 2 1 1 s)) ∧
      (pmf 2 1 1 1 = 0 ↔ (1 : ℕ) = 0) := by
  have h := fast_path_collapses_to_last_pmf 2 1 [2, 1] (by simp) (by norm_num)
    (by norm_num) (by intro s hs; simp at hs; omega)
  exact ⟨h.1, h.2 1 (by simp)⟩

/-! # Lineage tree and evaluator: `src/lineage.rs`

The Rust `TreeNode` struct is a nested inductive here.  `String` fields are
`List Char`, numeric ids are `ℕ`.  `NodeType` is the closed sum from
`src/lineage.rs`. -/

inductive NodeType where
  | Inner
  | Taxon
  | Sequence
deriving DecidableEq

inductive TreeNode where
  | mk (label : List Char) (confidence_range : ℕ × ℕ) (children : List TreeNode)
      (node_type : NodeType)

instance : Inhabited TreeNode := ⟨TreeNode.mk [] (0, 0) [] .Inner⟩

def TreeNode.label : TreeNode → List Char
  | .mk l _ _ _ => l

def TreeNode.confidence_range : TreeNode → ℕ × ℕ
  | .mk _ r _ _ => r

def TreeNode.children : TreeNode → List TreeNode
  | .mk _ _ cs _ => cs

def TreeNode.node_type : TreeNode → NodeType
  | .mk _ _ _ t => t

/-- Lower end of `confidence_range` (written `confidence_range.0` in Rust). -/
def TreeNode.lo (n : TreeNode) : ℕ := n.confidence_range.1

/-- Upper end of `confidence_range` (written `confidence_range.1` in Rust). -/
def TreeNode.hi (n : TreeNode) : ℕ := n.confidence_range.2

/-- Embedding of `TreeNode::new` from `src/lineage.rs`. -/
def TreeNode.new (label : List Char) (confidence_idx : ℕ) (t : NodeType) : TreeNode :=
  .mk label (confidence_idx, confidence_idx + 1) [] t

/-- Embedding of `Tree::is_inner_taxon_node`: the node is tagged `Inner`. -/
def is_inner_taxon_node (n : TreeNode) : Prop := n.node_type = .Inner

instance (n : TreeNode) : Decidable (is_inner_taxon_node n) := by
  unfold is_inner_taxon_node; infer_instance

/-- Embedding of `Tree::is_taxon_leaf`: the node is tagged `Taxon`. -/
def is_taxon_leaf (n : TreeNode) : Prop := n.node_type = .Taxon

instance (n : TreeNode) : Decidable (is_taxon_leaf n) := by
  unfold is_taxon_leaf; infer_instance

/-- Splitting a lineage string on `','` (Rust `lineage.split(',')`); empty
pieces are kept, and the result is never the empty list. -/
def split_levels : List Char → List (List Char)
  | [] => [[]]
  | c :: rest =>
    if c = ',' then [] :: split_levels rest
    else
      match split_levels rest with
      | [] => [[c]]
      | g :: gs => (c :: g) :: gs

lemma split_levels_ne_nil (cs : List Char) : split_levels cs ≠ [] := by
  induction cs with
  | nil => simp [split_levels]
  | cons c rest ih =>
    unfold split_levels
    split
    · simp
    · rcases h : split_levels rest with _ | ⟨g, gs⟩
      · simp
      · simp

/-- Embedding of the per-row body of `Tree::new` (`src/lineage.rs`,
`src/tree.rs`: both build the trie identically): descend the trie along the
remaining lineage levels, at each level either matching the current node's
last child by label or appending a fresh child, setting the visited node's
`confidence_range.1` to `idx + 1`; after the last level, append the
`Sequence` stub carrying the reference row and close the taxon's range.
`idx` is the row's reference id (`confidence_idx` before its increment). -/
def insert_row (idx : ℕ) : TreeNode → List (List Char) → TreeNode
  | .mk label (lo, _) children ty, [] =>
      .mk label (lo, idx + 1) (children ++ [TreeNode.new label idx .Sequence]) ty
  | .mk label (lo, _) children ty, l :: rest =>
      let ntype := if rest.isEmpty then NodeType.Taxon else NodeType.Inner
      let children1 :=
        match children.getLast? with
        | some c => if c.label = l then children else children ++ [TreeNode.new l idx ntype]
        | none => [TreeNode.new l idx ntype]
      let children2 :=
        match children1.getLast? with
        | some c => children1.dropLast ++ [insert_row idx c rest]
        | none => []
      .mk label (lo, idx + 1) children2 ty

/-- Replace a node's `confidence_range.1` (the source's final
`root.confidence_range.1 = confidence_idx`). -/
def set_hi (n : TreeNode) (k : ℕ) : TreeNode :=
  match n with
  | .mk label (lo, _) children ty => .mk label (lo, k) children ty

/-- Lexicographic order on `List Char`, standing in for Rust's `Ord` on
`String` (byte order; identical on the ASCII data handled here). -/
def lineage_le (a b : List Char) : Prop := a ≤ b

instance : DecidableRel lineage_le := fun a b => by
  unfold lineage_le; infer_instance

/-- The in-memory reference index (`Tree` in `src/lineage.rs`).  The two hash
maps are embedded as functions: `sequences` sends an encoded sequence to the
ascending list of reference ids sharing it, `k_mer_map` sends a 16-bit key to
its posting list. -/
structure Raxtax.Tree where
  root : TreeNode
  lineages : List (List Char)
  sequences : List ℕ → List ℕ
  k_mer_map : ℕ → List ℕ
  num_tips : ℕ

/-- Modelled from the spec: `utils::map_four_to_two_bit_repr` is not part of
this source snapshot (`src/utils.rs` here is an older revision without it).
Per §3 of the spec, the 4-bit codes of the pure bases `A=1, C=2, G=4, T=8`
map to the 2-bit codes `0, 1, 2, 3` and every other nybble (an IUPAC
ambiguity code) yields no value. -/
def map_four_to_two_bit_repr (v : ℕ) : Option ℕ :=
  if v = 1 then some 0
  else if v = 2 then some 1
  else if v = 4 then some 2
  else if v = 8 then some 3
  else none

/-- One 8-wide window folded into a 16-bit key, embedding the
`vals.iter().enumerate().map(...).fold_options(...)` body of `Tree::new`:
position `j` contributes its 2-bit code shifted to bits `[14−2j, 15−2j]`;
an ambiguous position aborts the window. -/
def window_kmer (w : List ℕ) : Option ℕ :=
  w.enum.foldl
    (fun acc jc =>
      match acc, map_four_to_two_bit_repr jc.2 with
      | some a, some c => some (a ||| (c <<< (14 - 2 * jc.1)))
      | _, _ => none)
    (some 0)

/-- Contiguous width-`n` windows of a list (Rust `slice::windows`, which
yields nothing when the slice is shorter than `n`). -/
def list_windows (n : ℕ) (l : List ℕ) : List (List ℕ) :=
  if n ≤ l.length then (List.range (l.length - n + 1)).map (fun i => (l.drop i).take n)
  else []

/-- Embedding of `Tree::new` from `src/lineage.rs`: sort the
(lineage, sequence) pairs by lineage (the Rust stable sort is modelled by the
stable `insertionSort`), build the trie by one `insert_row` per row, close
the root's range at `num_tips`, and build the `sequences` and `k_mer_map`
maps (`k_mer_map` posting lists are deduplicated and sorted at the end, as in
the source's `unique().sorted()`). -/
def Raxtax.Tree.new (pairs : List (List Char × List ℕ)) : Tree :=
  let sorted_pairs :=
    List.insertionSort (fun a b : List Char × List ℕ => lineage_le a.1 b.1) pairs
  let root0 := TreeNode.new "root".toList 0 .Inner
  let root1 := (sorted_pairs.enum).foldl
    (fun r p => insert_row p.1 r (split_levels p.2.1)) root0
  let sequence_map : List ℕ → List ℕ := fun s =>
    ((sorted_pairs.enum).filter (fun p => p.2.2 = s)).map (fun p => p.1)
  let k_mer_raw : ℕ → List ℕ := fun k =>
    ((sorted_pairs.enum).filter
      (fun p => (list_windows 8 p.2.2).any (fun w => window_kmer w = some k))).map (fun p => p.1)
  { root := set_hi root1 sorted_pairs.length
    lineages := sorted_pairs.map (fun p => p.1)
    sequences := sequence_map
    k_mer_map := fun k => List.insertionSort (· ≤ ·) (k_mer_raw k).dedup
    num_tips := sorted_pairs.length }

/-! ## The evaluator (`Lineage` in `src/lineage.rs`) -/

/-- `F64_OUTPUT_ACCURACY = 2`, so `rounding_factor = 10^2 = 100`
(`src/utils.rs`, `src/lineage.rs`). -/
def rounding_factor : ℚ := 100

/-- Rounding to the display precision:
`(x * rounding_factor).round() / rounding_factor`.  `Rat.round` agrees with
Rust's `f64::round` (half away from zero) on the nonnegative values this
program rounds. -/
def round_conf (x : ℚ) : ℚ := (round (x * rounding_factor) : ℚ) / rounding_factor

/-- Embedding of `Lineage::get_confidence`: the mass of a node read off the
prefix-sum vector,
`confidence_prefix_sum[hi] − confidence_prefix_sum[lo]` (`ps` is
`List.scanl (·+·) 0 p`, exactly the `vec![0.0]` extended by the running sums
built in `Lineage::new`).  Indexing is total here via `getD`; the source
indexes within bounds for the trees it builds. -/
def get_confidence (ps : List ℚ) (n : TreeNode) : ℚ :=
  ps.getD n.hi 0 - ps.getD n.lo 0

/-- A pushed entry of `self.confidence_vectors`: reference id at the range
start, the confidence prefix and the expected-confidence prefix. -/
abbrev Row := ℕ × List ℚ × List ℚ

/-- Rust `Iterator::max_by` over the children by confidence: the fold keeps
the later element on ties, so the last maximal child is selected, as in the
source's `max_by(...)` inside the collapse loop of `eval_recurse`. -/
def max_child (ps : List ℚ) (children : List TreeNode) : Option TreeNode :=
  children.foldl
    (fun acc c =>
      match acc with
      | none => some c
      | some m => if get_confidence ps m ≤ get_confidence ps c then some c else some m)
    none

mutual
/-- Node size, used as recursion fuel for the collapse descent. -/
def TreeNode.tsize : TreeNode → ℕ
  | .mk _ _ cs _ => 1 + TreeNode.fsize cs
/-- Total size of a forest of nodes. -/
def TreeNode.fsize : List TreeNode → ℕ
  | [] => 0
  | c :: rest => TreeNode.tsize c + TreeNode.fsize rest
end

/-- The collapse loop of `eval_recurse` (`while is_inner_taxon_node ...`):
starting from the node whose children were all pruned, repeatedly step to
the maximum-confidence child, appending the placeholder
`1.0 / rounding_factor` to the confidence prefix and the child's
range-size/num_tips to the expected prefix, until a non-`Inner` node is
reached; emit that node's `confidence_range.0` with the two prefixes.  The
loop steps into a child each iteration, so `tsize` fuel suffices; the
`fuel = 0` and childless-`Inner` fallbacks return the current node's row and
are never reached on trees built by `Tree.new` (the source `unwrap`s
there). -/
def descend_max (ps : List ℚ) (num_tips : ℕ) : ℕ → TreeNode → List ℚ → List ℚ → Row
  | 0, n, conf_pre, exp_pre => (n.lo, conf_pre, exp_pre)
  | fuel + 1, n, conf_pre, exp_pre =>
    if is_inner_taxon_node n then
      match max_child ps n.children with
      | some c =>
          descend_max ps num_tips fuel c (conf_pre ++ [1 / rounding_factor])
            (exp_pre ++ [((c.hi - c.lo : ℕ) : ℚ) / (num_tips : ℚ)])
      | none => (n.lo, conf_pre, exp_pre)
    else (n.lo, conf_pre, exp_pre)

mutual
/-- Embedding of `Lineage::eval_recurse` from `src/lineage.rs`, returning the
rows pushed to `self.confidence_vectors` in push order.  The children are
processed by `eval_children`; if no child survived pruning and the node is an
`Inner` node, the collapse loop force-emits a single row. -/
def eval_recurse (ps : List ℚ) (num_tips : ℕ) (n : TreeNode)
    (conf_pre exp_pre : List ℚ) : List Row :=
  match n with
  | .mk label range cs ty =>
    eval_children ps num_tips conf_pre exp_pre cs ++
      (if (∀ c ∈ cs, round_conf (get_confidence ps c) = 0) ∧
          is_inner_taxon_node (.mk label range cs ty) then
        [descend_max ps num_tips (TreeNode.mk label range cs ty).tsize
          (TreeNode.mk label range cs ty) conf_pre exp_pre]
      else [])
/-- The `for c in &node.children` loop body of `eval_recurse`: a child whose
rounded confidence is `0` is pruned; otherwise the child's rounded confidence
and its expected confidence (range size over `num_tips`) are appended to the
prefixes, the child is recursed into, and afterwards a row is emitted for the
child if it is a `Taxon` leaf. -/
def eval_children (ps : List ℚ) (num_tips : ℕ) (conf_pre exp_pre : List ℚ) :
    List TreeNode → List Row
  | [] => []
  | c :: rest =>
    (if round_conf (get_confidence ps c) = 0 then []
     else
       let conf_pre2 := conf_pre ++ [round_conf (get_confidence ps c)]
       let exp_pre2 := exp_pre ++ [((c.hi - c.lo : ℕ) : ℚ) / (num_tips : ℚ)]
       eval_recurse ps num_tips c conf_pre2 exp_pre2 ++
         (if is_taxon_leaf c then [(c.lo, conf_pre2, exp_pre2)] else [])) ++
      eval_children ps num_tips conf_pre exp_pre rest
end

/-- Per-row output of the evaluator (`EvaluationResult` in
`src/lineage.rs`), labels as character lists. -/
structure EvaluationResult where
  query_label : List Char
  lineage : List Char
  confidence_values : List ℚ
  local_signal : ℚ
  global_signal : ℚ
deriving DecidableEq

/-- Modelled from the spec: `utils::euclidean_norm` is not part of this
source snapshot (`src/utils.rs` here is an older revision without it); §4.4
defines the global signal as the L2 norm `‖·‖₂`.  `ℚ` has no square roots,
so the embedding stores the square of the norm; the claims treated here only
pass signals through unchanged, and squaring is injective on nonnegative
reals, so every equality between signals is faithfully represented. -/
def euclidean_norm_sq (xs : List ℚ) : ℚ := (xs.map (fun x => x * x)).sum

/-- Modelled from the spec: `utils::euclidean_distance_l1` is not part of
this source snapshot; §4.4 defines the local signal as the L2 distance of
the two slices after each is individually L1-normalized.  As with
`euclidean_norm_sq`, the square of the distance is stored. -/
def euclidean_distance_l1_sq (a b : List ℚ) : ℚ :=
  euclidean_norm_sq
    (List.zipWith (fun x y => x / (a.map abs).sum - y / (b.map abs).sum) a b)

/-- `f64::EPSILON` is exactly `2⁻⁵²`. -/
def f64_epsilon : ℚ := 1 / 2 ^ 52

/-- The predicate of the `find_position` call in `Lineage::evaluate`:
`1.0 - x > f64::EPSILON`, the first expected-confidence entry strictly
below `1` (up to the float epsilon). -/
def significant_expected (x : ℚ) : Prop := 1 - x > f64_epsilon

instance : DecidablePred significant_expected := fun x => by
  unfold significant_expected; infer_instance

/-- `Iterator::find_position`: index of the first element satisfying the
predicate, if any. -/
def find_position : List ℚ → Option ℕ
  | [] => none
  | x :: rest => if significant_expected x then some 0 else (find_position rest).map (· + 1)

/-- Rust's `Iterator::partial_cmp` on two `f64` sequences: lexicographic
comparison, a strict prefix comparing less. -/
def lex_ord : List ℚ → List ℚ → Ordering
  | [], [] => .eq
  | [], _ :: _ => .lt
  | _ :: _, [] => .gt
  | x :: xs, y :: ys => if x < y then .lt else if y < x then .gt else lex_ord xs ys

/-- The sort order of `Lineage::evaluate`:
`sorted_by(|a, b| b.1.iter().partial_cmp(a.1.iter()).unwrap())`, i.e. rows
ordered by confidence vector lexicographically descending. -/
def rows_le (a b : Row) : Prop := lex_ord b.2.1 a.2.1 ≠ .gt

instance : DecidableRel rows_le := fun a b => by
  unfold rows_le; infer_instance

/-- Embedding of `Lineage::new` plus `Lineage::evaluate` from
`src/lineage.rs`: build the confidence prefix sums, collect the rows pushed
by `eval_recurse` from the root with empty prefixes, sort them by confidence
vector lexicographically descending (`itertools::sorted_by` is a stable
sort, modelled by the stable `insertionSort`), and map each row to an
`EvaluationResult`.  The source `unwrap`s the `find_position` over each
row's expected vector (panicking when every expected entry is `1`, i.e. on a
single-lineage database); `none` models that panic. -/
def Lineage.evaluate (tree : Raxtax.Tree) (query_label : List Char)
    (confidence_values : List ℚ) : Option (List EvaluationResult) :=
  let ps := List.scanl (· + ·) 0 confidence_values
  let rows := eval_recurse ps tree.num_tips tree.root [] []
  let sorted_rows := List.insertionSort rows_le rows
  let leaf_confidence :=
    euclidean_norm_sq (confidence_values.map (fun v => v - 1 / (tree.num_tips : ℚ)))
  if ∀ r ∈ sorted_rows, (find_position r.2.2).isSome then
    some (sorted_rows.map (fun r =>
      let start_index := (find_position r.2.2).getD 0
      { query_label := query_label
        lineage := tree.lineages.getD r.1 []
        confidence_values := r.2.1
        local_signal :=
          euclidean_distance_l1_sq (r.2.1.drop start_index) (r.2.2.drop start_index)
        global_signal := leaf_confidence }))
  else none

/-! Constructor disequalities used by the concrete evaluations. -/

@[simp] lemma ord_lt_ne_gt : ¬ (Ordering.lt = Ordering.gt) := by decide

@[simp] lemma ord_eq_ne_gt : ¬ (Ordering.eq = Ordering.gt) := by decide

@[simp] lemma nt_taxon_ne_inner : ¬ (NodeType.Taxon = NodeType.Inner) := by decide

@[simp] lemma nt_sequence_ne_inner : ¬ (NodeType.Sequence = NodeType.Inner) := by decide

@[simp] lemma nt_inner_ne_taxon : ¬ (NodeType.Inner = NodeType.Taxon) := by decide

@[simp] lemma nt_sequence_ne_taxon : ¬ (NodeType.Sequence = NodeType.Taxon) := by decide

/-! ## Scenario A (`test_tree_construction` in `src/lineage.rs`) -/

/-- The five Scenario A lineages with placeholder identical sequences, in the
order of the source test. -/
def scenario_a_pairs : List (List Char × List ℕ) :=
  [("Animalia,Chordata,Mammalia,Primates,Hominidae,Homo".toList, List.replicate 9 0),
   ("Animalia,Chordata,Mammalia,Primates,Hominidae,Pan".toList, List.replicate 9 0),
   ("Animalia,Chordata,Mammalia,Carnivora,Canidae,Canis".toList, List.replicate 9 0),
   ("Animalia,Chordata,Mammalia,Carnivora,Felidae,Felis".toList, List.replicate 9 0),
   ("Animalia,Chordata,Mammalia,Carnivora,Felidae,Felis".toList, List.replicate 9 0)]

/-- The Scenario A trie, written out: reference ids after sorting are
0 = Canis, 1, 2 = Felis, 3 = Homo, 4 = Pan. -/
def scenario_a_root : TreeNode :=
  .mk "root".toList (0, 5)
    [.mk "Animalia".toList (0, 5)
      [.mk "Chordata".toList (0, 5)
        [.mk "Mammalia".toList (0, 5)
          [.mk "Carnivora".toList (0, 3)
            [.mk "Canidae".toList (0, 1)
              [.mk "Canis".toList (0, 1)
                [.mk "Canis".toList (0, 1) [] .Sequence] .Taxon] .Inner,
             .mk "Felidae".toList (1, 3)
              [.mk "Felis".toList (1, 3)
                [.mk "Felis".toList (1, 2) [] .Sequence,
                 .mk "Felis".toList (2, 3) [] .Sequence] .Taxon] .Inner] .Inner,
           .mk "Primates".toList (3, 5)
            [.mk "Hominidae".toList (3, 5)
              [.mk "Homo".toList (3, 4)
                [.mk "Homo".toList (3, 4) [] .Sequence] .Taxon,
               .mk "Pan".toList (4, 5)
                [.mk "Pan".toList (4, 5) [] .Sequence] .Taxon] .Inner] .Inner] .Inner] .Inner]
      .Inner] .Inner

set_option maxRecDepth 10000 in
lemma scenario_a_root_eq : (Raxtax.Tree.new scenario_a_pairs).root = scenario_a_root := by rfl

set_option maxRecDepth 10000 in
lemma scenario_a_num_tips : (Raxtax.Tree.new scenario_a_pairs).num_tips = 5 := by rfl

set_option maxRecDepth 10000 in
lemma scenario_a_lineages :
    (Raxtax.Tree.new scenario_a_pairs).lineages =
      ["Animalia,Chordata,Mammalia,Carnivora,Canidae,Canis".toList,
       "Animalia,Chordata,Mammalia,Carnivora,Felidae,Felis".toList,
       "Animalia,Chordata,Mammalia,Carnivora,Felidae,Felis".toList,
       "Animalia,Chordata,Mammalia,Primates,Hominidae,Homo".toList,
       "Animalia,Chordata,Mammalia,Primates,Hominidae,Pan".toList] := by rfl


/-! ## Order properties of the output ranking -/

lemma lex_ord_swap : ∀ a b : List ℚ, lex_ord b a = (lex_ord a b).swap := by
  intro a
  induction a with
  | nil => intro b; cases b <;> rfl
  | cons x xs ih =>
    intro b
    cases b with
    | nil => rfl
    | cons y ys =>
      rcases lt_trichotomy x y with h | h | h
      · simp [lex_ord, h, asymm h, Ordering.swap]
      · subst h
        simp only [lex_ord, lt_irrefl, if_false]
        exact ih ys
      · simp [lex_ord, h, asymm h, Ordering.swap]

lemma lex_ord_trans_ne_gt :
    ∀ (a b c : List ℚ), lex_ord a b ≠ .gt → lex_ord b c ≠ .gt → lex_ord a c ≠ .gt := by
  intro a
  induction a with
  | nil =>
    intro b c _ _
    cases c <;> simp [lex_ord]
  | cons x xs ih =>
    intro b c hab hbc
    cases b with
    | nil => simp [lex_ord] at hab
    | cons y ys =>
      cases c with
      | nil => simp [lex_ord] at hbc
      | cons z zs =>
        simp only [lex_ord] at hab hbc ⊢
        rcases lt_trichotomy x y with hxy | hxy | hxy
        · rcases lt_trichotomy y z with hyz | hyz | hyz
          · rw [if_pos (lt_trans hxy hyz)]; simp
          · rw [if_pos (hyz ▸ hxy)]; simp
          · rw [if_neg hyz.asymm, if_pos hyz] at hbc
            exact absurd rfl hbc
        · subst hxy
          rcases lt_trichotomy x z with hyz | hyz | hyz
          · rw [if_pos hyz]; simp
          · subst hyz
            rw [if_neg (lt_irrefl x), if_neg (lt_irrefl x)] at hab hbc ⊢
            exact ih ys zs hab hbc
          · rw [if_neg hyz.asymm, if_pos hyz] at hbc
            exact absurd rfl hbc
        · rw [if_neg hxy.asymm, if_pos hxy] at hab
          exact absurd rfl hab

instance : IsTotal Row rows_le := by
  constructor
  intro a b
  unfold rows_le
  by_cases h : lex_ord b.2.1 a.2.1 = .gt
  · right
    rw [lex_ord_swap, h]
    simp [Ordering.swap]
  · left; exact h

instance : IsTrans Row rows_le := by
  constructor
  intro a b c hab hbc
  exact lex_ord_trans_ne_gt c.2.1 b.2.1 a.2.1 hbc hab

/-- C2: on the Scenario A database with
`p = [0.1, 0.3, 0.4, 0.004, 0.004]`, the evaluator emits exactly the three
rows Felis `[0.81, 0.81, 0.81, 0.80, 0.70, 0.70]`,
Canis `[0.81, 0.81, 0.81, 0.80, 0.10, 0.10]`,
Pan `[0.81, 0.81, 0.81, 0.01, 0.01, 0.01]` in that order; and in general the
emitted rows of any evaluation are sorted by confidence vector,
lexicographically descending (ties broken by subsequent entries, a strict
prefix comparing below its extensions). -/
theorem evaluator_output_ranking :
    ((Lineage.evaluate (Raxtax.Tree.new scenario_a_pairs) "q".toList
        [1/10, 3/10, 2/5, 1/250, 1/250]).map
      (fun l => l.map (fun r => (r.lineage, r.confidence_values)))) =
    some [("Animalia,Chordata,Mammalia,Carnivora,Felidae,Felis".toList,
            [81/100, 81/100, 81/100, 4/5, 7/10, 7/10]),
          ("Animalia,Chordata,Mammalia,Carnivora,Canidae,Canis".toList,
            [81/100, 81/100, 81/100, 4/5, 1/10, 1/10]),
          ("Animalia,Chordata,Mammalia,Primates,Hominidae,Pan".toList,
            [81/100, 81/100, 81/100, 1/100, 1/100, 1/100])] ∧
    ∀ (tree : Raxtax.Tree) (label : List Char) (p : List ℚ)
      (results : List EvaluationResult),
      Lineage.evaluate tree label p = some results →
      List.Sorted
        (fun a b => lex_ord b.confidence_values a.confidence_values ≠ .gt) results := by
  constructor
  · unfold Lineage.evaluate
    rw [scenario_a_root_eq, scenario_a_num_tips, scenario_a_lineages]
    norm_num [scenario_a_root, eval_recurse, eval_children, descend_max, max_child,
      TreeNode.tsize, TreeNode.fsize, get_confidence, round_conf, rounding_factor, round_eq,
      TreeNode.children, TreeNode.label, TreeNode.node_type, TreeNode.lo, TreeNode.hi,
      TreeNode.confidence_range, is_inner_taxon_node, is_taxon_leaf, List.scanl,
      rows_le, lex_ord, List.insertionSort, List.orderedInsert, find_position,
      significant_expected, f64_epsilon, euclidean_norm_sq, euclidean_distance_l1_sq]
  · intro tree label p results h
    simp only [Lineage.evaluate] at h
    split at h
    · obtain rfl := Option.some.inj h
      have hs : List.Sorted rows_le
          (List.insertionSort rows_le
            (eval_recurse (List.scanl (· + ·) 0 p) tree.num_tips tree.root [] [])) :=
        List.sorted_insertionSort rows_le _
      exact List.Pairwise.map _ (fun a b hab => hab) hs
    · exact absurd h (by simp)

/-- A two-lineage database used for concrete witnesses. -/
def two_lineage_pairs : List (List Char × List ℕ) :=
  [("A,B".toList, List.replicate 9 0), ("A,C".toList, List.replicate 9 0)]

set_option maxRecDepth 10000 in
lemma two_lineage_root_eq :
    (Raxtax.Tree.new two_lineage_pairs).root =
      .mk "root".toList (0, 2)
        [.mk "A".toList (0, 2)
          [.mk "B".toList (0, 1) [.mk "B".toList (0, 1) [] .Sequence] .Taxon,
           .mk "C".toList (1, 2) [.mk "C".toList (1, 2) [] .Sequence] .Taxon] .Inner]
        .Inner := by rfl

set_option maxRecDepth 10000 in
lemma two_lineage_num_tips : (Raxtax.Tree.new two_lineage_pairs).num_tips = 2 := by rfl

set_option maxRecDepth 10000 in
lemma two_lineage_lineages :
    (Raxtax.Tree.new two_lineage_pairs).lineages = ["A,B".toList, "A,C".toList] := by rfl

lemma two_lineage_evaluate :
    Lineage.evaluate (Raxtax.Tree.new two_lineage_pairs) "q".toList [1/2, 1/4] =
      some [⟨"q".toList, "A,B".toList, [3/4, 1/2], 0, 1/16⟩,
            ⟨"q".toList, "A,C".toList, [3/4, 1/4], 0, 1/16⟩] := by
  unfold Lineage.evaluate
  rw [two_lineage_root_eq, two_lineage_num_tips, two_lineage_lineages]
  norm_num [eval_recurse, eval_children, descend_max, max_child,
    TreeNode.tsize, TreeNode.fsize, get_confidence, round_conf, rounding_factor, round_eq,
    TreeNode.children, TreeNode.label, TreeNode.node_type, TreeNode.lo, TreeNode.hi,
    TreeNode.confidence_range, is_inner_taxon_node, is_taxon_leaf, List.scanl,
    rows_le, lex_ord, List.insertionSort, List.orderedInsert, find_position,
    significant_expected, f64_epsilon, euclidean_norm_sq, euclidean_distance_l1_sq,
    abs_of_nonneg]

/-- C2 witness: the generic sortedness clause applied to the evaluation of a
concrete two-lineage database. -/
theorem evaluator_output_ranking_witness :
    Lineage.evaluate (Raxtax.Tree.new two_lineage_pairs) "q".toList [1/2, 1/4] =
      some [⟨"q".toList, "A,B".toList, [3/4, 1/2], 0, 1/16⟩,
            ⟨"q".toList, "A,C".toList, [3/4, 1/4], 0, 1/16⟩] ∧
    List.Sorted
      (fun a b : EvaluationResult =>
        lex_ord b.confidence_values a.confidence_values ≠ .gt)
      [⟨"q".toList, "A,B".toList, [3/4, 1/2], 0, 1/16⟩,
       ⟨"q".toList, "A,C".toList, [3/4, 1/4], 0, 1/16⟩] :=
  ⟨two_lineage_evaluate,
    evaluator_output_ranking.2 (Raxtax.Tree.new two_lineage_pairs) "q".toList [1/2, 1/4] _
      two_lineage_evaluate⟩

/-! ## Scenario C (`test_likelihood_edge_case` in `src/lineage.rs`) -/

def scenario_c_pairs : List (List Char × List ℕ) :=
  [("Animalia,Chordata,Mammalia,Carnivora,Felidae,Felis".toList, List.replicate 9 0),
   ("Animalia,Chordata,Mammalia,Carnivora,Felidae,Felis_ferrocius".toList,
     List.replicate 9 0),
   ("Animalia,Chordata,Mammalia,Carnivora,Canidae,Canis".toList, List.replicate 9 0)]

/-- The Scenario C trie: reference ids after sorting are 0 = Canis,
1 = Felis, 2 = Felis_ferrocius. -/
def scenario_c_root : TreeNode :=
  .mk "root".toList (0, 3)
    [.mk "Animalia".toList (0, 3)
      [.mk "Chordata".toList (0, 3)
        [.mk "Mammalia".toList (0, 3)
          [.mk "Carnivora".toList (0, 3)
            [.mk "Canidae".toList (0, 1)
              [.mk "Canis".toList (0, 1)
                [.mk "Canis".toList (0, 1) [] .Sequence] .Taxon] .Inner,
             .mk "Felidae".toList (1, 3)
              [.mk "Felis".toList (1, 2)
                [.mk "Felis".toList (1, 2) [] .Sequence] .Taxon,
               .mk "Felis_ferrocius".toList (2, 3)
                [.mk "Felis_ferrocius".toList (2, 3) [] .Sequence] .Taxon] .Inner]
            .Inner] .Inner] .Inner] .Inner] .Inner

set_option maxRecDepth 10000 in
lemma scenario_c_root_eq : (Raxtax.Tree.new scenario_c_pairs).root = scenario_c_root := by rfl

set_option maxRecDepth 10000 in
lemma scenario_c_num_tips : (Raxtax.Tree.new scenario_c_pairs).num_tips = 3 := by rfl

set_option maxRecDepth 10000 in
lemma scenario_c_lineages :
    (Raxtax.Tree.new scenario_c_pairs).lineages =
      ["Animalia,Chordata,Mammalia,Carnivora,Canidae,Canis".toList,
       "Animalia,Chordata,Mammalia,Carnivora,Felidae,Felis".toList,
       "Animalia,Chordata,Mammalia,Carnivora,Felidae,Felis_ferrocius".toList] := by rfl

lemma eval_children_all_pruned (ps : List ℚ) (num_tips : ℕ) (conf_pre exp_pre : List ℚ) :
    ∀ cs : List TreeNode, (∀ c ∈ cs, round_conf (get_confidence ps c) = 0) →
      eval_children ps num_tips conf_pre exp_pre cs = [] := by
  intro cs h
  induction cs with
  | nil => rw [eval_children]
  | cons c rest ih =>
    rw [eval_children, if_pos (h c (List.mem_cons_self c rest))]
    rw [ih (fun x hx => h x (List.mem_cons_of_mem c hx))]
    rfl

/-- C5: at any `Inner` node none of whose children survives
rounding-to-2-decimals pruning, `eval_recurse` force-emits exactly one
collapsed row, namely the row produced by `descend_max` (which descends
along the maximum-mass child at each `Inner` level — the last maximal child
on ties, as Rust's `max_by` — appending the placeholder
`1/rounding_factor = 0.01` to the confidence prefix for each descended
level); on the Scenario C database with `p = [0.004, 0.004, 0.004]` the
single emitted row is `…Felidae,Felis_ferrocius` with confidence vector
`[0.01, 0.01, 0.01, 0.01, 0.01, 0.01]`. -/
theorem collapse_force_emit :
    (∀ (ps : List ℚ) (num_tips : ℕ) (label : List Char) (range : ℕ × ℕ)
      (cs : List TreeNode) (ty : NodeType) (conf_pre exp_pre : List ℚ),
      (∀ c ∈ cs, round_conf (get_confidence ps c) = 0) →
      is_inner_taxon_node (.mk label range cs ty) →
      eval_recurse ps num_tips (.mk label range cs ty) conf_pre exp_pre =
        [descend_max ps num_tips (TreeNode.mk label range cs ty).tsize
          (.mk label range cs ty) conf_pre exp_pre]) ∧
    ((Lineage.evaluate (Raxtax.Tree.new scenario_c_pairs) "q".toList
        [1/250, 1/250, 1/250]).map
      (fun l => l.map (fun r => (r.lineage, r.confidence_values)))) =
    some [("Animalia,Chordata,Mammalia,Carnivora,Felidae,Felis_ferrocius".toList,
            [1/100, 1/100, 1/100, 1/100, 1/100, 1/100])] := by
  constructor
  · intro ps num_tips label range cs ty conf_pre exp_pre hpruned hinner
    rw [eval_recurse, eval_children_all_pruned ps num_tips conf_pre exp_pre cs hpruned,
      if_pos ⟨hpruned, hinner⟩]
    rfl
  · unfold Lineage.evaluate
    rw [scenario_c_root_eq, scenario_c_num_tips, scenario_c_lineages]
    norm_num [scenario_c_root, eval_recurse, eval_children, descend_max, max_child,
      TreeNode.tsize, TreeNode.fsize, get_confidence, round_conf, rounding_factor, round_eq,
      TreeNode.children, TreeNode.label, TreeNode.node_type, TreeNode.lo, TreeNode.hi,
      TreeNode.confidence_range, is_inner_taxon_node, is_taxon_leaf, List.scanl,
      rows_le, lex_ord, List.insertionSort, List.orderedInsert, find_position,
      significant_expected, f64_epsilon, euclidean_norm_sq, euclidean_distance_l1_sq,
      abs_of_nonneg]

/-- C5 witness: the generic collapse clause instantiated at the Scenario C
`Felidae` node with the Scenario C prefix sums. -/
theorem collapse_force_emit_witness :
    eval_recurse [0, 1/250, 1/125, 3/250] 3
      (.mk "Felidae".toList (1, 3)
        [.mk "Felis".toList (1, 2)
          [.mk "Felis".toList (1, 2) [] .Sequence] .Taxon,
         .mk "Felis_ferrocius".toList (2, 3)
          [.mk "Felis_ferrocius".toList (2, 3) [] .Sequence] .Taxon] .Inner)
      [1/100, 1/100, 1/100, 1/100, 1/100] [1, 1, 1, 1, 2/3] =
      [descend_max [0, 1/250, 1/125, 3/250] 3
        (TreeNode.mk "Felidae".toList (1, 3)
          [.mk "Felis".toList (1, 2)
            [.mk "Felis".toList (1, 2) [] .Sequence] .Taxon,
           .mk "Felis_ferrocius".toList (2, 3)
            [.mk "Felis_ferrocius".toList (2, 3) [] .Sequence] .Taxon] .Inner).tsize
        (.mk "Felidae".toList (1, 3)
          [.mk "Felis".toList (1, 2)
            [.mk "Felis".toList (1, 2) [] .Sequence] .Taxon,
           .mk "Felis_ferrocius".toList (2, 3)
            [.mk "Felis_ferrocius".toList (2, 3) [] .Sequence] .Taxon] .Inner)
        [1/100, 1/100, 1/100, 1/100, 1/100] [1, 1, 1, 1, 2/3]] := by
  apply collapse_force_emit.1
  · intro c hc
    simp only [List.mem_cons, List.not_mem_nil, or_false] at hc
    rcases hc with rfl | rfl <;>
      norm_num [round_conf, rounding_factor, round_eq, get_confidence,
        TreeNode.lo, TreeNode.hi, TreeNode.confidence_range]
  · rfl

/-! ## Range nesting invariant of `Tree::new` (used for C10) -/

/-- Every node's range lies within `[·.lo, N)`, every child's range lies
within its parent's. -/
inductive WellRanged (N : ℕ) : TreeNode → Prop where
  | intro : ∀ n : TreeNode, n.lo ≤ n.hi → n.hi ≤ N →
      (∀ c ∈ n.children, n.lo ≤ c.lo ∧ c.hi ≤ n.hi) →
      (∀ c ∈ n.children, WellRanged N c) → WellRanged N n

lemma WellRanged.lo_le_hi {N : ℕ} {n : TreeNode} (h : WellRanged N n) : n.lo ≤ n.hi := by
  cases h; assumption

lemma WellRanged.hi_le {N : ℕ} {n : TreeNode} (h : WellRanged N n) : n.hi ≤ N := by
  cases h; assumption

lemma WellRanged.children_bounds {N : ℕ} {n : TreeNode} (h : WellRanged N n) :
    ∀ c ∈ n.children, n.lo ≤ c.lo ∧ c.hi ≤ n.hi := by
  cases h; assumption

lemma WellRanged.children_wr {N : ℕ} {n : TreeNode} (h : WellRanged N n) :
    ∀ c ∈ n.children, WellRanged N c := by
  cases h; assumption

lemma WellRanged.mono {N M : ℕ} (hNM : N ≤ M) :
    ∀ {n : TreeNode}, WellRanged N n → WellRanged M n := by
  intro n h
  induction h with
  | intro n h1 h2 h3 _ ih => exact ⟨n, h1, le_trans h2 hNM, h3, ih⟩

@[simp] lemma TreeNode.label_mk (l : List Char) (r : ℕ × ℕ) (cs : List TreeNode)
    (t : NodeType) : (TreeNode.mk l r cs t).label = l := rfl

@[simp] lemma TreeNode.range_mk (l : List Char) (r : ℕ × ℕ) (cs : List TreeNode)
    (t : NodeType) : (TreeNode.mk l r cs t).confidence_range = r := rfl

@[simp] lemma TreeNode.children_mk (l : List Char) (r : ℕ × ℕ) (cs : List TreeNode)
    (t : NodeType) : (TreeNode.mk l r cs t).children = cs := rfl

@[simp] lemma TreeNode.node_type_mk (l : List Char) (r : ℕ × ℕ) (cs : List TreeNode)
    (t : NodeType) : (TreeNode.mk l r cs t).node_type = t := rfl

@[simp] lemma TreeNode.lo_mk (l : List Char) (r : ℕ × ℕ) (cs : List TreeNode)
    (t : NodeType) : (TreeNode.mk l r cs t).lo = r.1 := rfl

@[simp] lemma TreeNode.hi_mk (l : List Char) (r : ℕ × ℕ) (cs : List TreeNode)
    (t : NodeType) : (TreeNode.mk l r cs t).hi = r.2 := rfl

@[simp] lemma TreeNode.new_lo (l : List Char) (i : ℕ) (t : NodeType) :
    (TreeNode.new l i t).lo = i := rfl

@[simp] lemma TreeNode.new_hi (l : List Char) (i : ℕ) (t : NodeType) :
    (TreeNode.new l i t).hi = i + 1 := rfl

@[simp] lemma TreeNode.new_children (l : List Char) (i : ℕ) (t : NodeType) :
    (TreeNode.new l i t).children = [] := rfl

@[simp] lemma TreeNode.new_label (l : List Char) (i : ℕ) (t : NodeType) :
    (TreeNode.new l i t).label = l := rfl

lemma mem_of_getLast?_eq {α : Type} {l : List α} {x : α} (h : l.getLast? = some x) :
    x ∈ l := by
  obtain ⟨hne, rfl⟩ := List.mem_getLast?_eq_getLast (show x ∈ l.getLast? from h)
  exact List.getLast_mem hne

lemma wellRanged_new (N : ℕ) (l : List Char) (i : ℕ) (t : NodeType) (h : i + 1 ≤ N) :
    WellRanged N (TreeNode.new l i t) :=
  ⟨_, by simp, by simpa using h, by simp, by simp⟩

lemma insert_row_wellRanged :
    ∀ (levels : List (List Char)) (idx : ℕ) (n : TreeNode),
      n.lo ≤ idx →
      (∀ c ∈ n.children, n.lo ≤ c.lo ∧ c.hi ≤ idx) →
      (∀ c ∈ n.children, WellRanged idx c) →
      WellRanged (idx + 1) (insert_row idx n levels) ∧
        (insert_row idx n levels).lo = n.lo ∧ (insert_row idx n levels).hi = idx + 1 := by
  intro levels
  induction levels with
  | nil =>
    intro idx n h1 h2 h3
    obtain ⟨label, ⟨lo, hi⟩, children, ty⟩ := n
    simp only [TreeNode.lo_mk, TreeNode.hi_mk, TreeNode.children_mk] at h1 h2 h3
    rw [insert_row]
    refine ⟨⟨_, by simp; omega, by simp, ?_, ?_⟩, by simp, by simp⟩
    · intro c hc
      simp only [TreeNode.children_mk, TreeNode.lo_mk, TreeNode.hi_mk]
      rcases List.mem_append.1 hc with hc | hc
      · have := h2 c hc
        omega
      · simp only [List.mem_singleton] at hc
        subst hc
        simp
        omega
    · intro c hc
      simp only [TreeNode.children_mk] at hc
      rcases List.mem_append.1 hc with hc | hc
      · exact WellRanged.mono (by omega) (h3 c hc)
      · simp only [List.mem_singleton] at hc
        subst hc
        exact wellRanged_new _ _ _ _ (le_refl _)
  | cons l rest ih =>
    intro idx n h1 h2 h3
    obtain ⟨label, ⟨lo, hi⟩, children, ty⟩ := n
    simp only [TreeNode.lo_mk, TreeNode.hi_mk, TreeNode.children_mk] at h1 h2 h3
    rw [insert_row]
    rcases hL : children.getLast? with _ | c
    · -- no children: a fresh child is created and descended into
      have hfresh := ih idx (TreeNode.new l idx (if rest.isEmpty then .Taxon else .Inner))
        (by simp) (by simp) (by simp)
      dsimp only
      simp only [List.getLast?_singleton, List.dropLast_single, List.nil_append]
      refine ⟨⟨_, by simp; omega, by simp, ?_, ?_⟩, by simp, by simp⟩
      · intro d hd
        simp only [TreeNode.children_mk, TreeNode.lo_mk, TreeNode.hi_mk,
          List.mem_singleton] at hd ⊢
        subst hd
        rw [hfresh.2.1, hfresh.2.2]
        simp
        omega
      · intro d hd
        simp only [TreeNode.children_mk, List.mem_singleton] at hd
        subst hd
        exact hfresh.1
    · have hcmem : c ∈ children := mem_of_getLast?_eq hL
      dsimp only
      by_cases hlabel : c.label = l
      · -- label match: descend into the existing last child
        rw [if_pos hlabel, hL]
        have hcw := h3 c hcmem
        have hfresh := ih idx c (le_trans hcw.lo_le_hi (h2 c hcmem).2)
          (fun d hd => ⟨(hcw.children_bounds d hd).1,
            le_trans (hcw.children_bounds d hd).2 (h2 c hcmem).2⟩)
          hcw.children_wr
        refine ⟨⟨_, by simp; omega, by simp, ?_, ?_⟩, by simp, by simp⟩
        · intro d hd
          simp only [TreeNode.children_mk, TreeNode.lo_mk, TreeNode.hi_mk] at hd ⊢
          rcases List.mem_append.1 hd with hd | hd
          · have := h2 d (List.dropLast_subset _ hd)
            omega
          · simp only [List.mem_singleton] at hd
            subst hd
            rw [hfresh.2.1, hfresh.2.2]
            exact ⟨(h2 c hcmem).1, le_refl _⟩
        · intro d hd
          simp only [TreeNode.children_mk] at hd
          rcases List.mem_append.1 hd with hd | hd
          · exact WellRanged.mono (by omega) (h3 d (List.dropLast_subset _ hd))
          · simp only [List.mem_singleton] at hd
            subst hd
            exact hfresh.1
      · -- no match: a fresh child is appended and descended into
        rw [if_neg hlabel]
        simp only [List.getLast?_concat, List.dropLast_concat]
        have hfresh := ih idx (TreeNode.new l idx (if rest.isEmpty then .Taxon else .Inner))
          (by simp) (by simp) (by simp)
        refine ⟨⟨_, by simp; omega, by simp, ?_, ?_⟩, by simp, by simp⟩
        · intro d hd
          simp only [TreeNode.children_mk, TreeNode.lo_mk, TreeNode.hi_mk] at hd ⊢
          rcases List.mem_append.1 hd with hd | hd
          · have := h2 d hd
            omega
          · simp only [List.mem_singleton] at hd
            subst hd
            rw [hfresh.2.1, hfresh.2.2]
            simp
            omega
        · intro d hd
          simp only [TreeNode.children_mk] at hd
          rcases List.mem_append.1 hd with hd | hd
          · exact WellRanged.mono (by omega) (h3 d hd)
          · simp only [List.mem_singleton] at hd
            subst hd
            exact hfresh.1

lemma fold_wellRanged :
    ∀ (rows : List (List Char × List ℕ)) (i : ℕ) (n : TreeNode),
      n.lo ≤ i →
      (∀ c ∈ n.children, n.lo ≤ c.lo ∧ c.hi ≤ i) →
      (∀ c ∈ n.children, WellRanged i c) →
      ((List.enumFrom i rows).foldl
          (fun r p => insert_row p.1 r (split_levels p.2.1)) n).lo = n.lo ∧
      (∀ c ∈ ((List.enumFrom i rows).foldl
          (fun r p => insert_row p.1 r (split_levels p.2.1)) n).children,
        n.lo ≤ c.lo ∧ c.hi ≤ i + rows.length) ∧
      (∀ c ∈ ((List.enumFrom i rows).foldl
          (fun r p => insert_row p.1 r (split_levels p.2.1)) n).children,
        WellRanged (i + rows.length) c) ∧
      n.lo ≤ i + rows.length := by
  intro rows
  induction rows with
  | nil =>
    intro i n h1 h2 h3
    refine ⟨by simp, ?_, ?_, by simpa using h1⟩
    · simpa using h2
    · simpa using h3
  | cons row rows ih =>
    intro i n h1 h2 h3
    have hstep := insert_row_wellRanged (split_levels row.1) i n h1 h2 h3
    have hrec := ih (i + 1) (insert_row i n (split_levels row.1))
      (by rw [hstep.2.1, hstep.2.2] at *; omega)
      (fun c hc => by
        have hb := hstep.1.children_bounds c hc
        have := hstep.2.2
        omega)
      (fun c hc => hstep.1.children_wr c hc)
    have hshape : List.enumFrom i (row :: rows) = (i, row) :: List.enumFrom (i + 1) rows := rfl
    rw [hshape, List.foldl_cons]
    have hlen : i + 1 + rows.length = i + (row :: rows).length := by
      simp [List.length_cons]; omega
    refine ⟨?_, ?_, ?_, ?_⟩
    · rw [hrec.1, hstep.2.1]
    · intro c hc
      have := hrec.2.1 c hc
      rw [hstep.2.1] at this
      omega
    · intro c hc
      have := hrec.2.2.1 c hc
      rwa [hlen] at this
    · have := hrec.2.2.2
      rw [hstep.2.1] at this
      omega

lemma tree_new_wellRanged (pairs : List (List Char × List ℕ)) :
    WellRanged (Raxtax.Tree.new pairs).num_tips (Raxtax.Tree.new pairs).root ∧
    (Raxtax.Tree.new pairs).root.lo = 0 ∧
    (Raxtax.Tree.new pairs).root.hi = (Raxtax.Tree.new pairs).num_tips := by
  unfold Raxtax.Tree.new
  simp only []
  set sorted_pairs :=
    List.insertionSort (fun a b : List Char × List ℕ => lineage_le a.1 b.1) pairs with hs
  have henum : sorted_pairs.enum = List.enumFrom 0 sorted_pairs := rfl
  have h := fold_wellRanged sorted_pairs 0 (TreeNode.new "root".toList 0 .Inner)
    (by simp) (by simp) (by simp)
  rw [← henum] at h
  set r := sorted_pairs.enum.foldl
    (fun r p => insert_row p.1 r (split_levels p.2.1)) (TreeNode.new "root".toList 0 .Inner)
    with hr
  obtain ⟨label, ⟨lo, hi⟩, children, ty⟩ := r
  simp only [TreeNode.lo_mk, TreeNode.children_mk] at h
  simp only [TreeNode.new_lo] at h
  unfold set_hi
  refine ⟨⟨_, ?_, ?_, ?_, ?_⟩, ?_, ?_⟩
  · simp
    omega
  · simp
  · intro c hc
    simp only [TreeNode.children_mk] at hc
    simp only [TreeNode.lo_mk, TreeNode.hi_mk]
    have := h.2.1 c hc
    omega
  · intro c hc
    simp only [TreeNode.children_mk] at hc
    simpa using h.2.2.1 c hc
  · simp
    omega
  · simp

/-! ## Mass and rounding lemmas (for C10) -/

lemma scanl_add_getD : ∀ (p : List ℚ) (a : ℚ) (i : ℕ), i ≤ p.length →
    (List.scanl (· + ·) a p).getD i 0 = a + (p.take i).sum := by
  intro p
  induction p with
  | nil =>
    intro a i hi
    have : i = 0 := by simpa using hi
    subst this
    simp
  | cons x xs ih =>
    intro a i hi
    rw [List.scanl_cons]
    cases i with
    | zero => simp
    | succ j =>
      have hstep : ([a] ++ List.scanl (· + ·) (a + x) xs).getD (j + 1) 0
          = (List.scanl (· + ·) (a + x) xs).getD j 0 := rfl
      rw [hstep, ih (a + x) j (by simpa using hi)]
      rw [List.take_succ_cons, List.sum_cons]
      ring

lemma take_sum_le (p : List ℚ) (hp : ∀ x ∈ p, 0 ≤ x) {i j : ℕ} (hij : i ≤ j) :
    (p.take i).sum ≤ (p.take j).sum := by
  have hsplit : j = i + (j - i) := by omega
  rw [hsplit, List.take_add, List.sum_append]
  have hnn : 0 ≤ ((p.drop i).take (j - i)).sum :=
    List.sum_nonneg fun x hx => hp x (List.drop_subset i p (List.take_subset _ _ hx))
  linarith

lemma get_confidence_nonneg (p : List ℚ) (hp : ∀ x ∈ p, 0 ≤ x) (n : TreeNode)
    (h1 : n.lo ≤ n.hi) (h2 : n.hi ≤ p.length) :
    0 ≤ get_confidence (List.scanl (· + ·) 0 p) n := by
  unfold get_confidence
  rw [scanl_add_getD p 0 n.hi h2, scanl_add_getD p 0 n.lo (le_trans h1 h2)]
  have := take_sum_le p hp h1
  linarith

lemma get_confidence_le (p : List ℚ) (hp : ∀ x ∈ p, 0 ≤ x) (n c : TreeNode)
    (hlo : n.lo ≤ c.lo) (hhi : c.hi ≤ n.hi) (hc : c.lo ≤ c.hi) (hn : n.hi ≤ p.length) :
    get_confidence (List.scanl (· + ·) 0 p) c ≤ get_confidence (List.scanl (· + ·) 0 p) n := by
  unfold get_confidence
  rw [scanl_add_getD p 0 c.hi (by omega), scanl_add_getD p 0 c.lo (by omega),
    scanl_add_getD p 0 n.hi hn, scanl_add_getD p 0 n.lo (by omega)]
  have h1 := take_sum_le p hp hhi
  have h2 := take_sum_le p hp hlo
  linarith

lemma round_conf_mono {x y : ℚ} (h : x ≤ y) : round_conf x ≤ round_conf y := by
  unfold round_conf rounding_factor
  have hr : round (x * 100) ≤ round (y * 100) := by
    rw [round_eq, round_eq]
    exact Int.floor_le_floor (by linarith)
  have hc : ((round (x * 100) : ℤ) : ℚ) ≤ ((round (y * 100) : ℤ) : ℚ) := by exact_mod_cast hr
  linarith

lemma round_conf_nonneg {x : ℚ} (h : 0 ≤ x) : 0 ≤ round_conf x := by
  have h0 : round_conf 0 = 0 := by
    unfold round_conf rounding_factor
    norm_num
  rw [← h0]
  exact round_conf_mono h

lemma round_conf_pos_min {x : ℚ} (h0 : 0 ≤ x) (hne : round_conf x ≠ 0) :
    1/100 ≤ round_conf x := by
  unfold round_conf rounding_factor at *
  have hr : 0 ≤ round (x * 100) := by
    rw [round_eq]
    exact Int.floor_nonneg.2 (by linarith)
  have hne' : round (x * 100) ≠ 0 := by
    intro h
    exact hne (by rw [h]; simp)
  have h1 : 1 ≤ round (x * 100) := by omega
  have h1' : (1 : ℚ) ≤ ((round (x * 100) : ℤ) : ℚ) := by exact_mod_cast h1
  linarith

lemma chain_ge_snoc (pre : List ℚ) (v : ℚ) (h : List.Chain' (· ≥ ·) pre)
    (hl : ∀ l ∈ pre.getLast?, v ≤ l) : List.Chain' (· ≥ ·) (pre ++ [v]) := by
  rw [List.chain'_append]
  refine ⟨h, List.chain'_singleton v, fun x hx y hy => ?_⟩
  simp only [List.head?_cons, Option.mem_def, Option.some.injEq] at hy
  subst hy
  exact hl x hx

lemma descend_max_chain :
    ∀ (fuel : ℕ) (ps : List ℚ) (num_tips : ℕ) (n : TreeNode) (conf_pre exp_pre : List ℚ),
      List.Chain' (· ≥ ·) conf_pre →
      (∀ l ∈ conf_pre.getLast?, 1/100 ≤ l) →
      List.Chain' (· ≥ ·) (descend_max ps num_tips fuel n conf_pre exp_pre).2.1 := by
  intro fuel
  induction fuel with
  | zero =>
    intro ps num_tips n conf_pre exp_pre h _
    rw [descend_max]
    exact h
  | succ fuel ih =>
    intro ps num_tips n conf_pre exp_pre h hl
    rw [descend_max]
    split
    · rcases hmc : max_child ps n.children with _ | c
      · exact h
      · refine ih ps num_tips c (conf_pre ++ [1 / rounding_factor]) _ ?_ ?_
        · refine chain_ge_snoc _ _ h fun l hli => ?_
          have := hl l hli
          unfold rounding_factor
          linarith
        · intro l hli
          rw [List.getLast?_concat] at hli
          simp only [Option.mem_def, Option.some.injEq] at hli
          subst hli
          unfold rounding_factor
          norm_num
    · exact h

lemma tsize_pos (n : TreeNode) : 1 ≤ n.tsize := by
  cases n
  rw [TreeNode.tsize]
  omega

lemma tsize_le_fsize : ∀ (cs : List TreeNode), ∀ c ∈ cs, c.tsize ≤ TreeNode.fsize cs := by
  intro cs
  induction cs with
  | nil => intro c hc; simp at hc
  | cons d rest ih =>
    intro c hc
    rw [TreeNode.fsize]
    rcases List.mem_cons.1 hc with rfl | hc
    · omega
    · have := ih c hc
      omega

/-- Loop body stage of the non-increase argument: every row produced by
`eval_children` on a list of children whose masses are bounded by the last
entry of the prefix has a non-increasing confidence vector, given the chain
property for rows produced by `eval_recurse` on smaller nodes. -/
lemma eval_children_chain_aux (k : ℕ)
    (hrec : ∀ (m : TreeNode), m.tsize ≤ k →
      ∀ (p : List ℚ) (N num_tips : ℕ) (conf_pre exp_pre : List ℚ),
        (∀ x ∈ p, 0 ≤ x) → WellRanged N m → N ≤ p.length →
        List.Chain' (· ≥ ·) conf_pre →
        (∀ l ∈ conf_pre.getLast?, 1/100 ≤ l ∧
          round_conf (get_confidence (List.scanl (· + ·) 0 p) m) ≤ l) →
        ∀ row ∈ eval_recurse (List.scanl (· + ·) 0 p) num_tips m conf_pre exp_pre,
          List.Chain' (· ≥ ·) row.2.1) :
    ∀ (cs : List TreeNode) (p : List ℚ) (N num_tips : ℕ) (conf_pre exp_pre : List ℚ),
      (∀ x ∈ p, 0 ≤ x) → (∀ c ∈ cs, WellRanged N c) → (∀ c ∈ cs, c.tsize ≤ k) →
      N ≤ p.length →
      List.Chain' (· ≥ ·) conf_pre →
      (∀ l ∈ conf_pre.getLast?, 1/100 ≤ l ∧
        ∀ c ∈ cs, round_conf (get_confidence (List.scanl (· + ·) 0 p) c) ≤ l) →
      ∀ row ∈ eval_children (List.scanl (· + ·) 0 p) num_tips conf_pre exp_pre cs,
        List.Chain' (· ≥ ·) row.2.1 := by
  intro cs
  induction cs with
  | nil =>
    intro p N num_tips conf_pre exp_pre _ _ _ _ _ _ row hrow
    rw [eval_children] at hrow
    simp at hrow
  | cons c rest ih =>
    intro p N num_tips conf_pre exp_pre hp hwr hsz hN hchain hlast row hrow
    rw [eval_children] at hrow
    rcases List.mem_append.1 hrow with hrow1 | hrow1
    · by_cases hprune :
        round_conf (get_confidence (List.scanl (· + ·) 0 p) c) = 0
      · rw [if_pos hprune] at hrow1
        simp at hrow1
      · rw [if_neg hprune] at hrow1
        dsimp only at hrow1
        have hwrc : WellRanged N c := hwr c (List.mem_cons_self c rest)
        have hmass : 0 ≤ get_confidence (List.scanl (· + ·) 0 p) c :=
          get_confidence_nonneg p hp c hwrc.lo_le_hi (le_trans hwrc.hi_le hN)
        have hrcmin : 1/100 ≤ round_conf (get_confidence (List.scanl (· + ·) 0 p) c) :=
          round_conf_pos_min hmass hprune
        have hchain2 : List.Chain' (· ≥ ·)
            (conf_pre ++ [round_conf (get_confidence (List.scanl (· + ·) 0 p) c)]) := by
          refine chain_ge_snoc _ _ hchain fun l hl => ?_
          exact (hlast l hl).2 c (List.mem_cons_self c rest)
        have hlast2 : ∀ l ∈ (conf_pre ++
            [round_conf (get_confidence (List.scanl (· + ·) 0 p) c)]).getLast?,
            1/100 ≤ l ∧ round_conf (get_confidence (List.scanl (· + ·) 0 p) c) ≤ l := by
          intro l hl
          rw [List.getLast?_concat] at hl
          simp only [Option.mem_def, Option.some.injEq] at hl
          subst hl
          exact ⟨hrcmin, le_refl _⟩
        rcases List.mem_append.1 hrow1 with hrow2 | hrow2
        · exact hrec c (hsz c (List.mem_cons_self c rest)) p N num_tips _ _ hp hwrc hN
            hchain2 hlast2 row hrow2
        · by_cases ht : is_taxon_leaf c
          · rw [if_pos ht] at hrow2
            simp only [List.mem_singleton] at hrow2
            subst hrow2
            exact hchain2
          · rw [if_neg ht] at hrow2
            simp at hrow2
    · exact ih p N num_tips conf_pre exp_pre hp
        (fun d hd => hwr d (List.mem_cons_of_mem c hd))
        (fun d hd => hsz d (List.mem_cons_of_mem c hd)) hN hchain
        (fun l hl => ⟨(hlast l hl).1,
          fun d hd => (hlast l hl).2 d (List.mem_cons_of_mem c hd)⟩) row hrow1

/-- Size-induction core of the non-increase argument: every row pushed by
`eval_recurse` from a well-ranged node extends a non-increasing prefix whose
last entry dominates the node's rounded mass, and stays non-increasing. -/
lemma eval_recurse_chain_aux :
    ∀ (k : ℕ) (n : TreeNode), n.tsize ≤ k →
      ∀ (p : List ℚ) (N num_tips : ℕ) (conf_pre exp_pre : List ℚ),
        (∀ x ∈ p, 0 ≤ x) → WellRanged N n → N ≤ p.length →
        List.Chain' (· ≥ ·) conf_pre →
        (∀ l ∈ conf_pre.getLast?, 1/100 ≤ l ∧
          round_conf (get_confidence (List.scanl (· + ·) 0 p) n) ≤ l) →
        ∀ row ∈ eval_recurse (List.scanl (· + ·) 0 p) num_tips n conf_pre exp_pre,
          List.Chain' (· ≥ ·) row.2.1 := by
  intro k
  induction k with
  | zero =>
    intro n hsz
    have := tsize_pos n
    omega
  | succ k ihk =>
    intro n hsz p N num_tips conf_pre exp_pre hp hwr hN hchain hlast row hrow
    obtain ⟨label, range, cs, ty⟩ := n
    rw [eval_recurse] at hrow
    have hcs_wr : ∀ c ∈ cs, WellRanged N c := by
      have := hwr.children_wr
      simpa using this
    have hcs_sz : ∀ c ∈ cs, c.tsize ≤ k := by
      intro c hc
      have h1 := tsize_le_fsize cs c hc
      rw [TreeNode.tsize] at hsz
      omega
    rcases List.mem_append.1 hrow with hrow1 | hrow1
    · refine eval_children_chain_aux k ihk cs p N num_tips conf_pre exp_pre hp hcs_wr
        hcs_sz hN hchain ?_ row hrow1
      intro l hl
      refine ⟨(hlast l hl).1, fun c hc => ?_⟩
      have hb := hwr.children_bounds
      simp only [TreeNode.children_mk] at hb
      have hble := hb c hc
      have hmle : get_confidence (List.scanl (· + ·) 0 p) c ≤
          get_confidence (List.scanl (· + ·) 0 p) (TreeNode.mk label range cs ty) :=
        get_confidence_le p hp _ c hble.1 hble.2 (hcs_wr c hc).lo_le_hi
          (le_trans hwr.hi_le hN)
      exact le_trans (round_conf_mono hmle) (hlast l hl).2
    · split at hrow1
      · simp only [List.mem_singleton] at hrow1
        subst hrow1
        exact descend_max_chain _ _ _ _ conf_pre exp_pre hchain
          fun l hl => (hlast l hl).1
      · simp at hrow1

/-- C10: The confidence values in every emitted row are non-increasing along
the lineage: at every depth the child's rounded confidence mass never exceeds
its parent's, and collapse placeholders `0.01` never exceed the preceding
entry, so each pushed confidence vector is sorted non-increasingly. -/
theorem confidence_vectors_non_increasing (pairs : List (List Char × List ℕ))
    (p : List ℚ) (hp : ∀ x ∈ p, 0 ≤ x)
    (hlen : (Raxtax.Tree.new pairs).num_tips ≤ p.length) :
    ∀ row ∈ eval_recurse (List.scanl (· + ·) 0 p) (Raxtax.Tree.new pairs).num_tips
        (Raxtax.Tree.new pairs).root [] [],
      List.Chain' (· ≥ ·) row.2.1 := by
  intro row hrow
  exact eval_recurse_chain_aux ((Raxtax.Tree.new pairs).root.tsize)
    (Raxtax.Tree.new pairs).root (le_refl _) p (Raxtax.Tree.new pairs).num_tips
    (Raxtax.Tree.new pairs).num_tips [] [] hp (tree_new_wellRanged pairs).1 hlen
    List.chain'_nil (by simp) row hrow

/-- C10 witness: on the two-lineage database with hit probabilities
`[1/2, 1/4]`, the first emitted row is `(0, [3/4, 1/2], [1, 1/2])` and the
theorem yields that its confidence vector `[3/4, 1/2]` is non-increasing. -/
theorem confidence_vectors_non_increasing_witness :
    ((0, [(3:ℚ)/4, 1/2], ([1, 1/2] : List ℚ)) : Row) ∈
      eval_recurse (List.scanl (· + ·) 0 [1/2, 1/4])
        (Raxtax.Tree.new two_lineage_pairs).num_tips
        (Raxtax.Tree.new two_lineage_pairs).root [] [] ∧
    List.Chain' (· ≥ ·)
      (((0, [(3:ℚ)/4, 1/2], ([1, 1/2] : List ℚ)) : Row)).2.1 := by
  have hmem : ((0, [(3:ℚ)/4, 1/2], ([1, 1/2] : List ℚ)) : Row) ∈
      eval_recurse (List.scanl (· + ·) 0 [1/2, 1/4])
        (Raxtax.Tree.new two_lineage_pairs).num_tips
        (Raxtax.Tree.new two_lineage_pairs).root [] [] := by
    rw [two_lineage_root_eq, two_lineage_num_tips]
    norm_num [eval_recurse, eval_children, descend_max, max_child,
      TreeNode.tsize, TreeNode.fsize, get_confidence, round_conf, rounding_factor,
      round_eq, TreeNode.children, TreeNode.label, TreeNode.node_type, TreeNode.lo,
      TreeNode.hi, TreeNode.confidence_range, is_inner_taxon_node, is_taxon_leaf,
      List.scanl]
  refine ⟨hmem, ?_⟩
  exact confidence_vectors_non_increasing two_lineage_pairs [1/2, 1/4]
    (by norm_num [List.forall_mem_cons])
    (by rw [two_lineage_num_tips]; norm_num) _ hmem

/-! ## `utils::sequence_to_kmers` (C7) -/

/-- Embedding of `utils::sequence_to_kmers` from `src/utils.rs`.  The source
slices `sequence[0..8]` before any length check, which panics for sequences
of fewer than 8 encoded bases; the panic is modelled by `none`.  Otherwise
the first 8 two-bit codes are packed into a `u16` by
`k_mer |= (c as u16) << (14 - j * 2)`, each further base is shifted in by
`k_mer = (k_mer << 2) | c` in `u16` arithmetic (modelled by `% 2^16`), every
intermediate `k_mer` is inserted into a `HashSet`, and the set is returned
sorted (modelled by `dedup` then insertion sort). -/
def sequence_to_kmers (sequence : List ℕ) : Option (List ℕ) :=
  if sequence.length < 8 then none
  else
    let first := (sequence.take 8).enum.foldl
      (fun k jc => k ||| ((jc.2 <<< (14 - 2 * jc.1)) % 65536)) 0
    let all := (sequence.drop 8).foldl
      (fun (acc : List ℕ × ℕ) c =>
        let k := ((acc.2 <<< 2) % 65536) ||| c
        (acc.1 ++ [k], k))
      ([first], first)
    some (List.insertionSort (· ≤ ·) all.1.dedup)

/-- C7: the claim states that encoded sequences shorter than 8 bases yield an
empty keyset and that the extraction is total; the source instead slices
`sequence[0..8]` unconditionally, which panics (`none` here) on a 7-base
sequence rather than returning the empty keyset. -/
theorem short_sequence_kmers_panic :
    sequence_to_kmers (List.replicate 7 0) = none := rfl

/-! ## Range partition invariant of `Tree::new` (C8) -/

@[simp] lemma TreeNode.new_node_type (l : List Char) (i : ℕ) (t : NodeType) :
    (TreeNode.new l i t).node_type = t := rfl

/-- `tiles a cs b`: the `confidence_range`s of `cs` are consecutive and fill
`[a, b)` exactly: each child starts where the previous one ended, the first
starts at `a` and the last ends at `b`. -/
def tiles (a : ℕ) : List TreeNode → ℕ → Prop
  | [], b => a = b
  | c :: rest, b => c.lo = a ∧ tiles c.hi rest b

/-- Every node of the subtree either has no children (the `Sequence` stubs)
or its children tile its `confidence_range` exactly. -/
inductive Partitioned : TreeNode → Prop where
  | intro : ∀ n : TreeNode, (n.children = [] ∨ tiles n.lo n.children n.hi) →
      (∀ c ∈ n.children, Partitioned c) → Partitioned n

lemma Partitioned.tiles_or {n : TreeNode} (h : Partitioned n) :
    n.children = [] ∨ tiles n.lo n.children n.hi := by
  cases h; assumption

lemma Partitioned.children_part {n : TreeNode} (h : Partitioned n) :
    ∀ c ∈ n.children, Partitioned c := by
  cases h; assumption

/-- The rightmost spine of the trie after inserting rows `0..idx-1`: the next
insertion at index `idx` only touches last children, each of which was closed
at `idx`, ending at a `Sequence` stub or a fresh childless node opened at
`idx`. -/
inductive SpineReady (idx : ℕ) : TreeNode → Prop where
  | nil : ∀ n : TreeNode, n.children = [] → n.lo = idx → SpineReady idx n
  | stub : ∀ n : TreeNode, n.children = [] → n.node_type = .Sequence →
      SpineReady idx n
  | cons : ∀ n c : TreeNode, n.children.getLast? = some c → c.hi = idx →
      SpineReady idx c → SpineReady idx n

/-- Depth discipline below a node: with `k+1` lineage levels remaining, no
immediate child is a `Sequence` stub and each child again satisfies the
discipline with `k` levels.  Holds when all lineages have the same number of
levels, ruling out an insertion descending into a `Sequence` stub. -/
inductive UniformDepth : ℕ → TreeNode → Prop where
  | leaf : ∀ n : TreeNode, UniformDepth 0 n
  | node : ∀ (k : ℕ) (n : TreeNode),
      (∀ c ∈ n.children, c.node_type ≠ .Sequence) →
      (∀ c ∈ n.children, UniformDepth k c) →
      UniformDepth (k + 1) n

lemma uniformDepth_of_childless (k : ℕ) (n : TreeNode) (h : n.children = []) :
    UniformDepth k n := by
  cases k with
  | zero => exact .leaf n
  | succ k => exact .node k n (by simp [h]) (by simp [h])

/-- A node of the tree: reflexive-transitive closure of the child relation. -/
inductive Reaches : TreeNode → TreeNode → Prop where
  | refl : ∀ n : TreeNode, Reaches n n
  | step : ∀ n c m : TreeNode, c ∈ n.children → Reaches c m → Reaches n m

lemma partitioned_reaches : ∀ {n m : TreeNode}, Reaches n m →
    Partitioned n → Partitioned m := by
  intro n m hr
  induction hr with
  | refl n => exact fun h => h
  | step n c m hc _ ih => exact fun h => ih (h.children_part c hc)

lemma wellRanged_reaches {N : ℕ} : ∀ {n m : TreeNode}, Reaches n m →
    WellRanged N n → WellRanged N m := by
  intro n m hr
  induction hr with
  | refl n => exact fun h => h
  | step n c m hc _ ih => exact fun h => ih (h.children_wr c hc)

lemma tiles_snoc : ∀ (cs : List TreeNode) (a b : ℕ) (x : TreeNode),
    tiles a cs b → x.lo = b → tiles a (cs ++ [x]) x.hi := by
  intro cs
  induction cs with
  | nil =>
    intro a b x h hx
    exact ⟨hx.trans h.symm, rfl⟩
  | cons c rest ih =>
    intro a b x h hx
    exact ⟨h.1, ih _ _ _ h.2 hx⟩

lemma tiles_getLast : ∀ (cs : List TreeNode) (a b : ℕ) (c : TreeNode),
    tiles a cs b → cs.getLast? = some c → c.hi = b := by
  intro cs
  induction cs with
  | nil =>
    intro a b c _ hg
    simp at hg
  | cons d rest ih =>
    intro a b c h hg
    cases rest with
    | nil =>
      simp only [List.getLast?_singleton, Option.some.injEq] at hg
      subst hg
      exact h.2
    | cons e t =>
      rw [List.getLast?_cons_cons] at hg
      exact ih _ _ _ h.2 hg

lemma tiles_update_last : ∀ (cs : List TreeNode) (a b : ℕ) (c x : TreeNode),
    tiles a cs b → cs.getLast? = some c → x.lo = c.lo →
    tiles a (cs.dropLast ++ [x]) x.hi := by
  intro cs
  induction cs with
  | nil =>
    intro a b c x _ hg
    simp at hg
  | cons d rest ih =>
    intro a b c x h hg hx
    cases rest with
    | nil =>
      simp only [List.getLast?_singleton, Option.some.injEq] at hg
      subst hg
      exact ⟨hx.trans h.1, rfl⟩
    | cons e t =>
      rw [List.getLast?_cons_cons] at hg
      exact ⟨h.1, ih _ _ _ _ h.2 hg hx⟩

lemma tiles_lo_ge : ∀ (cs : List TreeNode) (a b : ℕ),
    tiles a cs b → (∀ c ∈ cs, c.lo ≤ c.hi) → ∀ c ∈ cs, a ≤ c.lo := by
  intro cs
  induction cs with
  | nil =>
    intro a b _ _ c hc
    simp at hc
  | cons d rest ih =>
    intro a b h hlh c hc
    rcases List.mem_cons.1 hc with rfl | hc
    · have := h.1
      omega
    · have h1 := ih d.hi b h.2 (fun e he => hlh e (List.mem_cons_of_mem d he)) c hc
      have h2 := hlh d (List.mem_cons_self d rest)
      have h3 := h.1
      omega

lemma tiles_le : ∀ (cs : List TreeNode) (a b : ℕ),
    tiles a cs b → (∀ c ∈ cs, c.lo ≤ c.hi) → a ≤ b := by
  intro cs
  induction cs with
  | nil =>
    intro a b h _
    simp only [tiles] at h
    omega
  | cons d rest ih =>
    intro a b h hlh
    have h1 := ih d.hi b h.2 (fun e he => hlh e (List.mem_cons_of_mem d he))
    have h2 := hlh d (List.mem_cons_self d rest)
    have h3 := h.1
    omega

lemma tiles_sum : ∀ (cs : List TreeNode) (a b : ℕ),
    tiles a cs b → (∀ c ∈ cs, c.lo ≤ c.hi) →
    (cs.map (fun c => c.hi - c.lo)).sum = b - a := by
  intro cs
  induction cs with
  | nil =>
    intro a b h _
    simp only [tiles] at h
    simp
    omega
  | cons d rest ih =>
    intro a b h hlh
    have h1 := ih d.hi b h.2 (fun e he => hlh e (List.mem_cons_of_mem d he))
    have h2 := tiles_le rest d.hi b h.2 (fun e he => hlh e (List.mem_cons_of_mem d he))
    have h3 := hlh d (List.mem_cons_self d rest)
    have h4 := h.1
    simp only [List.map_cons, List.sum_cons, h1]
    omega

lemma tiles_pairwise : ∀ (cs : List TreeNode) (a b : ℕ),
    tiles a cs b → (∀ c ∈ cs, c.lo ≤ c.hi) →
    List.Pairwise (fun x y : TreeNode => x.hi ≤ y.lo) cs := by
  intro cs
  induction cs with
  | nil =>
    intro a b _ _
    exact List.Pairwise.nil
  | cons d rest ih =>
    intro a b h hlh
    refine List.Pairwise.cons ?_ (ih d.hi b h.2
      (fun e he => hlh e (List.mem_cons_of_mem d he)))
    intro y hy
    exact tiles_lo_ge rest d.hi b h.2
      (fun e he => hlh e (List.mem_cons_of_mem d he)) y hy

lemma tiles_union : ∀ (cs : List TreeNode) (a b : ℕ),
    tiles a cs b → (∀ c ∈ cs, c.lo ≤ c.hi) →
    ∀ i : ℕ, (a ≤ i ∧ i < b) ↔ ∃ c ∈ cs, c.lo ≤ i ∧ i < c.hi := by
  intro cs
  induction cs with
  | nil =>
    intro a b h _ i
    simp only [tiles] at h
    subst h
    simp
  | cons d rest ih =>
    intro a b h hlh i
    have hrest : ∀ c ∈ rest, c.lo ≤ c.hi :=
      fun e he => hlh e (List.mem_cons_of_mem d he)
    have hdb : d.hi ≤ b := tiles_le rest d.hi b h.2 hrest
    have hdl := hlh d (List.mem_cons_self d rest)
    have h1 := h.1
    constructor
    · intro hi
      by_cases hcase : i < d.hi
      · exact ⟨d, List.mem_cons_self d rest, by omega, hcase⟩
      · obtain ⟨c, hc, h3, h4⟩ := (ih d.hi b h.2 hrest i).1 ⟨by omega, hi.2⟩
        exact ⟨c, List.mem_cons_of_mem d hc, h3, h4⟩
    · rintro ⟨c, hc, h3, h4⟩
      rcases List.mem_cons.1 hc with rfl | hc
      · omega
      · have := (ih d.hi b h.2 hrest i).2 ⟨c, hc, h3, h4⟩
        omega

lemma insert_row_partition :
    ∀ (levels : List (List Char)) (idx : ℕ) (n : TreeNode),
      n.node_type ≠ .Sequence →
      Partitioned n → SpineReady idx n → UniformDepth levels.length n →
      Partitioned (insert_row idx n levels) ∧
      (insert_row idx n levels).lo = n.lo ∧
      (insert_row idx n levels).hi = idx + 1 ∧
      (insert_row idx n levels).node_type = n.node_type ∧
      SpineReady (idx + 1) (insert_row idx n levels) ∧
      UniformDepth levels.length (insert_row idx n levels) := by
  intro levels
  induction levels with
  | nil =>
    intro idx n hns hpart hsp hud
    obtain ⟨label, ⟨lo, hi⟩, children, ty⟩ := n
    simp only [TreeNode.node_type_mk] at hns
    rw [insert_row]
    cases hsp with
    | nil _ hc hlo =>
      simp only [TreeNode.children_mk] at hc
      simp only [TreeNode.lo_mk] at hlo
      subst hc
      refine ⟨⟨_, Or.inr ?_, ?_⟩, by simp, by simp, by simp, ?_, .leaf _⟩
      · simp only [TreeNode.children_mk, TreeNode.lo_mk, TreeNode.hi_mk,
          List.nil_append]
        simp [tiles]
        omega
      · intro c hc
        simp only [TreeNode.children_mk, List.nil_append, List.mem_singleton] at hc
        subst hc
        exact ⟨_, Or.inl (by simp), by simp⟩
      · refine SpineReady.cons _ (TreeNode.new label idx .Sequence) ?_ (by simp)
          (SpineReady.stub _ (by simp) (by simp))
        simp only [TreeNode.children_mk, List.nil_append, List.getLast?_singleton]
    | stub _ hc hty =>
      simp only [TreeNode.node_type_mk] at hty
      exact absurd hty hns
    | cons _ c' hg hhi hsp' =>
      simp only [TreeNode.children_mk] at hg
      rcases hpart.tiles_or with hemp | htl
      · simp only [TreeNode.children_mk] at hemp
        rw [hemp] at hg
        simp at hg
      · simp only [TreeNode.children_mk, TreeNode.lo_mk, TreeNode.hi_mk] at htl
        have hhieq : hi = idx := by
          have := tiles_getLast children lo hi c' htl hg
          omega
        refine ⟨⟨_, Or.inr ?_, ?_⟩, by simp, by simp, by simp, ?_, .leaf _⟩
        · simp only [TreeNode.children_mk, TreeNode.lo_mk, TreeNode.hi_mk]
          have h2 := tiles_snoc children lo hi (TreeNode.new label idx .Sequence)
            htl (by simp; omega)
          simpa using h2
        · intro c hc
          simp only [TreeNode.children_mk] at hc
          rcases List.mem_append.1 hc with hc | hc
          · exact hpart.children_part c hc
          · simp only [List.mem_singleton] at hc
            subst hc
            exact ⟨_, Or.inl (by simp), by simp⟩
        · refine SpineReady.cons _ (TreeNode.new label idx .Sequence) ?_ (by simp)
            (SpineReady.stub _ (by simp) (by simp))
          simp only [TreeNode.children_mk]
          exact List.getLast?_concat _
  | cons l rest ih =>
    intro idx n hns hpart hsp hud
    obtain ⟨label, ⟨lo, hi⟩, children, ty⟩ := n
    simp only [TreeNode.node_type_mk] at hns
    simp only [List.length_cons] at hud
    cases hud with
    | node _ _ hseq hudc =>
    simp only [TreeNode.children_mk] at hseq hudc
    rw [insert_row]
    rcases hL : children.getLast? with _ | c
    · -- no children: a fresh child is created and descended into
      cases hsp with
      | nil _ hc0 hlo =>
        simp only [TreeNode.children_mk] at hc0
        simp only [TreeNode.lo_mk] at hlo
        subst hc0
        have hfns : (TreeNode.new l idx
            (if rest.isEmpty then NodeType.Taxon else NodeType.Inner)).node_type ≠
            .Sequence := by
          simp only [TreeNode.new_node_type]
          split <;> simp
        have hfresh := ih idx
          (TreeNode.new l idx (if rest.isEmpty then NodeType.Taxon else NodeType.Inner))
          hfns ⟨_, Or.inl (by simp), by simp⟩ (SpineReady.nil _ (by simp) (by simp))
          (uniformDepth_of_childless _ _ (by simp))
        dsimp only
        simp only [List.getLast?_singleton, List.dropLast_single, List.nil_append]
        refine ⟨⟨_, Or.inr ?_, ?_⟩, by simp, by simp, by simp, ?_, ?_⟩
        · simp only [TreeNode.children_mk, TreeNode.lo_mk, TreeNode.hi_mk]
          refine ⟨?_, ?_⟩
          · rw [hfresh.2.1]
            simp [hlo]
          · simp only [tiles]
            exact hfresh.2.2.1
        · intro c hc
          simp only [TreeNode.children_mk, List.mem_singleton] at hc
          subst hc
          exact hfresh.1
        · refine SpineReady.cons _ _ ?_ hfresh.2.2.1 hfresh.2.2.2.2.1
          simp only [TreeNode.children_mk, List.getLast?_singleton]
        · refine UniformDepth.node _ _ ?_ ?_
          · intro c hc
            simp only [TreeNode.children_mk, List.mem_singleton] at hc
            subst hc
            rw [hfresh.2.2.2.1]
            exact hfns
          · intro c hc
            simp only [TreeNode.children_mk, List.mem_singleton] at hc
            subst hc
            exact hfresh.2.2.2.2.2
      | stub _ hc0 hty =>
        simp only [TreeNode.node_type_mk] at hty
        exact absurd hty hns
      | cons _ c' hg hhi hsp' =>
        simp only [TreeNode.children_mk] at hg
        rw [hL] at hg
        simp at hg
    · -- existing last child
      have hcmem : c ∈ children := mem_of_getLast?_eq hL
      dsimp only
      cases hsp with
      | nil _ hc0 hlo =>
        simp only [TreeNode.children_mk] at hc0
        rw [hc0] at hL
        simp at hL
      | stub _ hc0 hty =>
        simp only [TreeNode.node_type_mk] at hty
        exact absurd hty hns
      | cons _ c' hg hhi hsp' =>
        simp only [TreeNode.children_mk] at hg
        rw [hL] at hg
        have hcc : c' = c := by
          injection hg with h
          exact h.symm
        rw [hcc] at hhi hsp'
        rcases hpart.tiles_or with hemp | htl
        · simp only [TreeNode.children_mk] at hemp
          rw [hemp] at hL
          simp at hL
        · simp only [TreeNode.children_mk, TreeNode.lo_mk, TreeNode.hi_mk] at htl
          by_cases hlabel : c.label = l
          · -- label match: descend into the existing last child
            rw [if_pos hlabel, hL]
            have hcud := hudc c hcmem
            have hcns := hseq c hcmem
            have hcpart := hpart.children_part c hcmem
            have hfresh := ih idx c hcns hcpart hsp' hcud
            refine ⟨⟨_, Or.inr ?_, ?_⟩, by simp, by simp, by simp, ?_, ?_⟩
            · simp only [TreeNode.children_mk, TreeNode.lo_mk, TreeNode.hi_mk]
              have h2 := tiles_update_last children lo hi c _ htl hL hfresh.2.1
              rw [hfresh.2.2.1] at h2
              exact h2
            · intro e he
              simp only [TreeNode.children_mk] at he
              rcases List.mem_append.1 he with he | he
              · exact hpart.children_part e (List.dropLast_subset _ he)
              · simp only [List.mem_singleton] at he
                subst he
                exact hfresh.1
            · refine SpineReady.cons _ _ ?_ hfresh.2.2.1 hfresh.2.2.2.2.1
              simp only [TreeNode.children_mk]
              exact List.getLast?_concat _
            · refine UniformDepth.node _ _ ?_ ?_
              · intro e he
                simp only [TreeNode.children_mk] at he
                rcases List.mem_append.1 he with he | he
                · exact hseq e (List.dropLast_subset _ he)
                · simp only [List.mem_singleton] at he
                  subst he
                  rw [hfresh.2.2.2.1]
                  exact hcns
              · intro e he
                simp only [TreeNode.children_mk] at he
                rcases List.mem_append.1 he with he | he
                · exact hudc e (List.dropLast_subset _ he)
                · simp only [List.mem_singleton] at he
                  subst he
                  exact hfresh.2.2.2.2.2
          · -- no match: a fresh child is appended and descended into
            rw [if_neg hlabel]
            simp only [List.getLast?_concat, List.dropLast_concat]
            have hfns : (TreeNode.new l idx
                (if rest.isEmpty then NodeType.Taxon else NodeType.Inner)).node_type ≠
                .Sequence := by
              simp only [TreeNode.new_node_type]
              split <;> simp
            have hfresh := ih idx
              (TreeNode.new l idx (if rest.isEmpty then NodeType.Taxon else NodeType.Inner))
              hfns ⟨_, Or.inl (by simp), by simp⟩ (SpineReady.nil _ (by simp) (by simp))
              (uniformDepth_of_childless _ _ (by simp))
            have hhieq : hi = idx := by
              have := tiles_getLast children lo hi c htl hL
              omega
            refine ⟨⟨_, Or.inr ?_, ?_⟩, by simp, by simp, by simp, ?_, ?_⟩
            · simp only [TreeNode.children_mk, TreeNode.lo_mk, TreeNode.hi_mk]
              have h2 := tiles_snoc children lo hi _ htl (by rw [hfresh.2.1]; simp; omega)
              rw [hfresh.2.2.1] at h2
              exact h2
            · intro e he
              simp only [TreeNode.children_mk] at he
              rcases List.mem_append.1 he with he | he
              · exact hpart.children_part e he
              · simp only [List.mem_singleton] at he
                subst he
                exact hfresh.1
            · refine SpineReady.cons _ _ ?_ hfresh.2.2.1 hfresh.2.2.2.2.1
              simp only [TreeNode.children_mk]
              exact List.getLast?_concat _
            · refine UniformDepth.node _ _ ?_ ?_
              · intro e he
                simp only [TreeNode.children_mk] at he
                rcases List.mem_append.1 he with he | he
                · exact hseq e he
                · simp only [List.mem_singleton] at he
                  subst he
                  rw [hfresh.2.2.2.1]
                  exact hfns
              · intro e he
                simp only [TreeNode.children_mk] at he
                rcases List.mem_append.1 he with he | he
                · exact hudc e he
                · simp only [List.mem_singleton] at he
                  subst he
                  exact hfresh.2.2.2.2.2

lemma fold_partition :
    ∀ (rows : List (List Char × List ℕ)) (d i : ℕ) (n : TreeNode),
      (∀ pr ∈ rows, (split_levels pr.1).length = d) →
      n.node_type = .Inner →
      Partitioned n → SpineReady i n → UniformDepth d n →
      Partitioned ((List.enumFrom i rows).foldl
          (fun r p => insert_row p.1 r (split_levels p.2.1)) n) ∧
      ((List.enumFrom i rows).foldl
          (fun r p => insert_row p.1 r (split_levels p.2.1)) n).lo = n.lo ∧
      (rows ≠ [] → ((List.enumFrom i rows).foldl
          (fun r p => insert_row p.1 r (split_levels p.2.1)) n).hi = i + rows.length) := by
  intro rows
  induction rows with
  | nil =>
    intro d i n _ _ hpart _ _
    exact ⟨hpart, rfl, by simp⟩
  | cons row rows ih =>
    intro d i n hd hni hpart hsp hud
    have hdl : (split_levels row.1).length = d := hd row (List.mem_cons_self row rows)
    have hudn : UniformDepth (split_levels row.1).length n := by
      rw [hdl]
      exact hud
    have hstep := insert_row_partition (split_levels row.1) i n
      (by rw [hni]; simp) hpart hsp hudn
    have hni' : (insert_row i n (split_levels row.1)).node_type = .Inner := by
      rw [hstep.2.2.2.1, hni]
    have hud' : UniformDepth d (insert_row i n (split_levels row.1)) := by
      rw [← hdl]
      exact hstep.2.2.2.2.2
    have hrec := ih d (i + 1) (insert_row i n (split_levels row.1))
      (fun pr hpr => hd pr (List.mem_cons_of_mem row hpr)) hni' hstep.1
      hstep.2.2.2.2.1 hud'
    have hshape : List.enumFrom i (row :: rows) = (i, row) :: List.enumFrom (i + 1) rows := rfl
    rw [hshape, List.foldl_cons]
    refine ⟨hrec.1, ?_, ?_⟩
    · rw [hrec.2.1, hstep.2.1]
    · intro _
      rcases hrows : rows with _ | ⟨row2, rows2⟩
      · subst hrows
        simp only [List.enumFrom, List.foldl_nil]
        rw [hstep.2.2.1]
        simp
      · rw [← hrows]
        have := hrec.2.2 (by rw [hrows]; simp)
        rw [this]
        simp [List.length_cons]
        omega

lemma set_hi_self (n : TreeNode) (k : ℕ) (h : n.hi = k) : set_hi n k = n := by
  obtain ⟨label, ⟨lo, hi⟩, children, ty⟩ := n
  simp only [TreeNode.hi_mk] at h
  rw [set_hi, h]

lemma tree_new_partitioned (pairs : List (List Char × List ℕ)) (d : ℕ)
    (hd : ∀ pr ∈ pairs, (split_levels pr.1).length = d) :
    Partitioned (Raxtax.Tree.new pairs).root := by
  unfold Raxtax.Tree.new
  simp only []
  set sorted_pairs :=
    List.insertionSort (fun a b : List Char × List ℕ => lineage_le a.1 b.1) pairs with hs
  have hd' : ∀ pr ∈ sorted_pairs, (split_levels pr.1).length = d := fun pr hpr =>
    hd pr ((List.perm_insertionSort
      (fun a b : List Char × List ℕ => lineage_le a.1 b.1) pairs).subset hpr)
  have henum : sorted_pairs.enum = List.enumFrom 0 sorted_pairs := rfl
  have h := fold_partition sorted_pairs d 0 (TreeNode.new "root".toList 0 .Inner)
    hd' (by simp) ⟨_, Or.inl (by simp), by simp⟩
    (SpineReady.nil _ (by simp) (by simp)) (uniformDepth_of_childless _ _ (by simp))
  rw [← henum] at h
  by_cases hne : sorted_pairs = []
  · rw [hne]
    simp only [List.enum_nil, List.foldl_nil, List.length_nil]
    have hset : set_hi (TreeNode.new "root".toList 0 .Inner) 0 =
        TreeNode.mk "root".toList (0, 0) [] .Inner := rfl
    rw [hset]
    exact ⟨_, Or.inl (by simp), by simp⟩
  · have hhi := h.2.2 hne
    rw [set_hi_self _ _ (by rw [hhi]; omega)]
    exact h.1

set_option maxRecDepth 10000 in
lemma single_lineage_root_eq :
    (Raxtax.Tree.new [("A".toList, List.replicate 9 0)]).root =
      .mk "root".toList (0, 1)
        [.mk "A".toList (0, 1) [.mk "A".toList (0, 1) [] .Sequence] .Taxon]
        .Inner := by rfl

/-- C8 counterexample: in the tree built from the single lineage `"A"`, the
`Sequence` stub below the taxon leaf is a node of the tree whose range has
size 1 while it has no children at all, so its range is not the union of its
children's ranges and `hi − lo` is not the sum of the children's sizes, contradicting
the claim's "every node". -/
theorem children_partition_counterexample :
    Reaches (Raxtax.Tree.new [("A".toList, List.replicate 9 0)]).root
      (.mk "A".toList (0, 1) [] .Sequence) ∧
    (TreeNode.mk "A".toList (0, 1) [] .Sequence).hi -
      (TreeNode.mk "A".toList (0, 1) [] .Sequence).lo = 1 ∧
    (((TreeNode.mk "A".toList (0, 1) [] .Sequence)).children.map
      (fun c => c.hi - c.lo)).sum = 0 := by
  refine ⟨?_, by simp, by simp⟩
  rw [single_lineage_root_eq]
  refine Reaches.step _ (.mk "A".toList (0, 1)
    [.mk "A".toList (0, 1) [] .Sequence] .Taxon) _ (by simp) ?_
  exact Reaches.step _ (.mk "A".toList (0, 1) [] .Sequence) _ (by simp) (Reaches.refl _)

/-- C8 (amended): in a tree built from lineages that all have the same
number of comma-separated levels, every node with at least one child has
children with pairwise disjoint `confidence_range`s whose union is exactly
the node's range, hence `hi − lo` equals the sum of the children's sizes;
the root's range is `[0, num_tips)`.  (Childless `Sequence` stub nodes,
which carry range size 1 and no children, are exempt.) -/
theorem children_ranges_partition (pairs : List (List Char × List ℕ)) (d : ℕ)
    (hd : ∀ pr ∈ pairs, (split_levels pr.1).length = d) :
    (∀ m : TreeNode, Reaches (Raxtax.Tree.new pairs).root m → m.children ≠ [] →
        List.Pairwise (fun x y : TreeNode => x.hi ≤ y.lo) m.children ∧
        (m.children.map (fun c => c.hi - c.lo)).sum = m.hi - m.lo ∧
        (∀ i : ℕ, (m.lo ≤ i ∧ i < m.hi) ↔ ∃ c ∈ m.children, c.lo ≤ i ∧ i < c.hi)) ∧
    (Raxtax.Tree.new pairs).root.lo = 0 ∧
    (Raxtax.Tree.new pairs).root.hi = (Raxtax.Tree.new pairs).num_tips := by
  have hwr := tree_new_wellRanged pairs
  have hpart := tree_new_partitioned pairs d hd
  refine ⟨?_, hwr.2.1, hwr.2.2⟩
  intro m hm hne
  have hmp : Partitioned m := partitioned_reaches hm hpart
  have hmw : WellRanged (Raxtax.Tree.new pairs).num_tips m :=
    wellRanged_reaches hm hwr.1
  have htl : tiles m.lo m.children m.hi := (hmp.tiles_or).resolve_left hne
  have hlh : ∀ c ∈ m.children, c.lo ≤ c.hi :=
    fun c hc => (hmw.children_wr c hc).lo_le_hi
  exact ⟨tiles_pairwise m.children m.lo m.hi htl hlh,
    tiles_sum m.children m.lo m.hi htl hlh,
    tiles_union m.children m.lo m.hi htl hlh⟩

/-- C8 witness: the amended theorem applied to the two-lineage database
(`"A,B"`, `"A,C"`, both of depth 2) at the root node. -/
theorem children_ranges_partition_witness :
    (∀ pr ∈ two_lineage_pairs, (split_levels pr.1).length = 2) ∧
    List.Pairwise (fun x y : TreeNode => x.hi ≤ y.lo)
      (Raxtax.Tree.new two_lineage_pairs).root.children ∧
    ((Raxtax.Tree.new two_lineage_pairs).root.children.map
        (fun c => c.hi - c.lo)).sum =
      (Raxtax.Tree.new two_lineage_pairs).root.hi -
        (Raxtax.Tree.new two_lineage_pairs).root.lo ∧
    (Raxtax.Tree.new two_lineage_pairs).root.lo = 0 ∧
    (Raxtax.Tree.new two_lineage_pairs).root.hi =
      (Raxtax.Tree.new two_lineage_pairs).num_tips := by
  have hd : ∀ pr ∈ two_lineage_pairs, (split_levels pr.1).length = 2 := by decide
  have h := children_ranges_partition two_lineage_pairs 2 hd
  have hroot := h.1 _ (Reaches.refl _) (by rw [two_lineage_root_eq]; simp)
  exact ⟨hd, hroot.1, hroot.2.1, h.2.1, h.2.2⟩

/-! ## The per-query pipeline (`raxtax` in `src/raxtax.rs`, C6) -/

instance : Inhabited EvaluationResult := ⟨⟨[], [], [], 0, 0⟩⟩

/-- Embedding of the per-query body of `raxtax` from `src/raxtax.rs`:
exact matches are looked up in `tree.sequences`; the query's 8-mer keyset is
extracted (`none` models the slice panic on short sequences); the
intersection buffer counts, per reference id, the occurrences of the id in
the posting lists of the query's k-mers (with the exact matches zeroed when
`skip_exact_matches` is set); the hit probabilities are computed with
`total = k_mers.len()` and `num_trials = k_mers.len() / 2` and fed to the
evaluator (`none` models its `assert!`/`unwrap` panics, including
`assert!(!eval_res.is_empty())`).  With `raw_confidence` and
`skip_exact_matches` both unset and exactly one exact match `idx`, the
result is replaced by the single all-ones row for `idx`'s lineage carrying
the evaluator's first-row signals. -/
def raxtax_query (tree : Raxtax.Tree) (query_label : List Char)
    (query_sequence : List ℕ) (skip_exact_matches raw_confidence : Bool) :
    Option (List EvaluationResult) :=
  let exact_matches := tree.sequences query_sequence
  match sequence_to_kmers query_sequence with
  | none => none
  | some k_mers =>
    let num_trials := k_mers.length / 2
    let intersect_buffer0 := (List.range tree.num_tips).map
      (fun id => (k_mers.map (fun k => (tree.k_mer_map k).count id)).sum)
    let intersect_buffer := if skip_exact_matches then
        (List.range tree.num_tips).map
          (fun id =>
            if id ∈ exact_matches then 0
            else (k_mers.map (fun k => (tree.k_mer_map k).count id)).sum)
      else intersect_buffer0
    match highest_hit_prob_per_reference k_mers.length num_trials intersect_buffer with
    | none => none
    | some probs =>
      match Lineage.evaluate tree query_label probs with
      | none => none
      | some [] => none
      | some (r0 :: rest) =>
        if raw_confidence = false ∧ skip_exact_matches = false then
          match exact_matches with
          | [idx] => some [{ query_label := query_label
                             lineage := tree.lineages.getD idx []
                             confidence_values := List.replicate
                               ((tree.lineages.getD idx []).count ',' + 1) (1 : ℚ)
                             local_signal := r0.local_signal
                             global_signal := r0.global_signal }]
          | _ => some (r0 :: rest)
        else some (r0 :: rest)

/-- C6: with `raw_confidence = false` and `skip_exact_matches = false`, a
query whose sequence has exactly one exact match `r` yields, whenever the
pipeline completes, a single best row whose confidence vector is all ones of
length `depth(r) + 1` (one per comma-separated level of `r`'s lineage) and
whose local and global signals are those of the evaluator's best row before
the adjustment. -/
theorem exact_match_confidence_override
    (tree : Raxtax.Tree) (query_label : List Char) (query_sequence : List ℕ)
    (r : ℕ) (res : List EvaluationResult)
    (hexact : tree.sequences query_sequence = [r])
    (hres : raxtax_query tree query_label query_sequence false false = some res) :
    ∃ (k_mers : List ℕ) (probs : List ℚ) (r0 : EvaluationResult)
      (rest : List EvaluationResult),
      sequence_to_kmers query_sequence = some k_mers ∧
      highest_hit_prob_per_reference k_mers.length (k_mers.length / 2)
        ((List.range tree.num_tips).map
          (fun id => (k_mers.map (fun k => (tree.k_mer_map k).count id)).sum)) =
        some probs ∧
      Lineage.evaluate tree query_label probs = some (r0 :: rest) ∧
      res = [{ query_label := query_label
               lineage := tree.lineages.getD r []
               confidence_values := List.replicate
                 ((tree.lineages.getD r []).count ',' + 1) (1 : ℚ)
               local_signal := r0.local_signal
               global_signal := r0.global_signal }] := by
  unfold raxtax_query at hres
  rw [hexact] at hres
  rcases hk : sequence_to_kmers query_sequence with _ | k_mers
  · rw [hk] at hres
    simp at hres
  · rw [hk] at hres
    dsimp only at hres
    simp only [Bool.false_eq_true, if_false] at hres
    rcases hp : highest_hit_prob_per_reference k_mers.length (k_mers.length / 2)
        ((List.range tree.num_tips).map
          (fun id => (k_mers.map (fun k => (tree.k_mer_map k).count id)).sum))
      with _ | probs
    · rw [hp] at hres
      simp at hres
    · rw [hp] at hres
      dsimp only at hres
      rcases he : Lineage.evaluate tree query_label probs with _ | rows
      · rw [he] at hres
        simp at hres
      · rw [he] at hres
        rcases rows with _ | ⟨r0, rest⟩
        · simp at hres
        · dsimp only at hres
          rw [if_pos ⟨trivial, trivial⟩] at hres
          refine ⟨k_mers, probs, r0, rest, rfl, hp, he, ?_⟩
          injection hres with h
          exact h.symm

/-- Two references with distinct sequences for the exact-match pipeline run:
`"A,B"` carries the all-`A` 4-bit sequence, `"A,C"` the all-`C` one. -/
def c6_pairs : List (List Char × List ℕ) :=
  [("A,B".toList, List.replicate 8 1), ("A,C".toList, List.replicate 8 2)]

set_option maxRecDepth 10000 in
lemma c6_root_eq :
    (Raxtax.Tree.new c6_pairs).root =
      .mk "root".toList (0, 2)
        [.mk "A".toList (0, 2)
          [.mk "B".toList (0, 1) [.mk "B".toList (0, 1) [] .Sequence] .Taxon,
           .mk "C".toList (1, 2) [.mk "C".toList (1, 2) [] .Sequence] .Taxon] .Inner]
        .Inner := by rfl

set_option maxRecDepth 10000 in
lemma c6_num_tips : (Raxtax.Tree.new c6_pairs).num_tips = 2 := by rfl

set_option maxRecDepth 10000 in
lemma c6_lineages :
    (Raxtax.Tree.new c6_pairs).lineages = ["A,B".toList, "A,C".toList] := by rfl

set_option maxRecDepth 10000 in
lemma c6_sequences :
    (Raxtax.Tree.new c6_pairs).sequences (List.replicate 8 1) = [0] := by rfl

set_option maxRecDepth 10000 in
lemma c6_kmers : sequence_to_kmers (List.replicate 8 1) = some [21845] := by rfl

set_option maxRecDepth 10000 in
lemma c6_buffer :
    (List.range (Raxtax.Tree.new c6_pairs).num_tips).map
      (fun id => (([21845] : List ℕ).map
        (fun k => (((Raxtax.Tree.new c6_pairs).k_mer_map k)).count id)).sum) = [0, 1] := by
  rfl

lemma c6_probs : highest_hit_prob_per_reference 1 0 [0, 1] = some [0, 1] := by
  norm_num [highest_hit_prob_per_reference, unnormalized_probs, only_last_pmf,
    List.contains, Nat.choose]

lemma c6_evaluate :
    Lineage.evaluate (Raxtax.Tree.new c6_pairs) "q".toList [0, 1] =
      some [⟨"q".toList, "A,C".toList, [1, 1], 0, 1/2⟩] := by
  unfold Lineage.evaluate
  rw [c6_root_eq, c6_num_tips, c6_lineages]
  norm_num [eval_recurse, eval_children, descend_max, max_child,
    TreeNode.tsize, TreeNode.fsize, get_confidence, round_conf, rounding_factor, round_eq,
    TreeNode.children, TreeNode.label, TreeNode.node_type, TreeNode.lo, TreeNode.hi,
    TreeNode.confidence_range, is_inner_taxon_node, is_taxon_leaf, List.scanl,
    rows_le, lex_ord, List.insertionSort, List.orderedInsert, find_position,
    significant_expected, f64_epsilon, euclidean_norm_sq, euclidean_distance_l1_sq,
    abs_of_nonneg]

lemma c6_pipeline :
    raxtax_query (Raxtax.Tree.new c6_pairs) "q".toList (List.replicate 8 1) false false =
      some [⟨"q".toList, "A,B".toList, [1, 1], 0, 1/2⟩] := by
  unfold raxtax_query
  rw [c6_sequences, c6_kmers]
  dsimp only
  simp only [Bool.false_eq_true, if_false]
  rw [c6_buffer]
  have hlen : ([21845] : List ℕ).length = 1 := rfl
  rw [hlen]
  have hdiv : (1 : ℕ) / 2 = 0 := rfl
  rw [hdiv, c6_probs]
  dsimp only
  rw [c6_evaluate]
  dsimp only
  rw [if_pos ⟨trivial, trivial⟩, c6_lineages]
  have hc : List.count ',' ['A', ',', 'B'] + 1 = 2 := rfl
  norm_num [hc, List.replicate]

/-- C6 witness: the pipeline run on the two-reference database with the
query equal to the first reference sequence; it has exactly one exact match
(reference 0, lineage `"A,B"` of depth 1), and the theorem yields the
all-ones confidence vector of length 2 carrying the evaluator's signals. -/
theorem exact_match_confidence_override_witness :
    (Raxtax.Tree.new c6_pairs).sequences (List.replicate 8 1) = [0] ∧
    raxtax_query (Raxtax.Tree.new c6_pairs) "q".toList (List.replicate 8 1) false false =
      some [⟨"q".toList, "A,B".toList, [1, 1], 0, 1/2⟩] ∧
    ∃ (k_mers : List ℕ) (probs : List ℚ) (r0 : EvaluationResult)
      (rest : List EvaluationResult),
      sequence_to_kmers (List.replicate 8 1) = some k_mers ∧
      highest_hit_prob_per_reference k_mers.length (k_mers.length / 2)
        ((List.range (Raxtax.Tree.new c6_pairs).num_tips).map
          (fun id => (k_mers.map
            (fun k => (((Raxtax.Tree.new c6_pairs).k_mer_map k)).count id)).sum)) =
        some probs ∧
      Lineage.evaluate (Raxtax.Tree.new c6_pairs) "q".toList probs = some (r0 :: rest) ∧
      [(⟨"q".toList, "A,B".toList, [1, 1], 0, 1/2⟩ : EvaluationResult)] =
        [{ query_label := "q".toList
           lineage := (Raxtax.Tree.new c6_pairs).lineages.getD 0 []
           confidence_values := List.replicate
             (((Raxtax.Tree.new c6_pairs).lineages.getD 0 []).count ',' + 1) (1 : ℚ)
           local_signal := r0.local_signal
           global_signal := r0.global_signal }] :=
  ⟨c6_sequences, c6_pipeline,
    exact_match_confidence_override (Raxtax.Tree.new c6_pairs) "q".toList
      (List.replicate 8 1) 0 _ c6_sequences c6_pipeline⟩

/-! ## Checkpoint resume logic (`src/io.rs`, C9) -/

/-- `str::split_once`: split at the first occurrence of `sep`, `none` when
`sep` does not occur. -/
def split_once (sep : Char) : List Char → Option (List Char × List Char)
  | [] => none
  | c :: rest =>
    if c = sep then some ([], rest)
    else
      match split_once sep rest with
      | some qp => some (c :: qp.1, qp.2)
      | none => none

/-- `retained_lines` of `check_incomplete_output` in `src/io.rs`: the input
lines whose first tab-separated field is a processed query label; a line
with no tab is filtered out (`split_once(...).unwrap_or(false)`). -/
def retained_lines (lines processed : List (List Char)) : List (List Char) :=
  lines.filter (fun line =>
    match split_once '\t' line with
    | some qp => decide (qp.1 ∈ processed)
    | none => false)

/-- Embedding of `check_incomplete_output` from `src/io.rs`, returning the
resulting file content.  `needs_rewrite` is set only inside the
`split_once` closure, i.e. only by a line that *contains* a tab and whose
first field is not processed; a tab-less line is dropped from
`retained_lines` but does not trigger a rewrite.  When `needs_rewrite` is
set, the file is rewritten with `writeln!(…, retained_lines.join("\n"))`,
which produces the retained lines — except that when all lines were dropped
the `writeln!` of the empty join leaves a single empty line.  When
`needs_rewrite` stays false the file is left untouched, so tab-less lines
persist in that case. -/
def check_incomplete_output (lines processed : List (List Char)) :
    List (List Char) :=
  let retained := retained_lines lines processed
  let needs_rewrite := lines.any (fun line =>
    match split_once '\t' line with
    | some qp => !(decide (qp.1 ∈ processed))
    | none => false)
  if needs_rewrite then (if retained.isEmpty then [[]] else retained) else lines

/-- The output-affecting state stored in a checkpoint (`Checkpoint` in
`src/io.rs`); the database fingerprint is abstracted to a number. -/
structure CkpData where
  tsv : Bool
  raw_confidence : Bool
  skip_exact_matches : Bool
  db_fingerprint : ℕ
deriving DecidableEq

/-- The output-affecting command-line flags of `Args` (`src/io.rs`). -/
structure ArgsFlags where
  tsv : Bool
  raw_confidence : Bool
  skip_exact_matches : Bool
  redo : Bool
deriving DecidableEq

/-- Embedding of `Args::checkpoint_valid`: the reevaluated fingerprint of the
database file (`none` models an `Err` from `FileFingerprint::new`) must exist
and match, and the three output-affecting flags must equal the checkpoint's. -/
def checkpoint_valid (args : ArgsFlags) (ckp : CkpData) (reevaluated : Option ℕ) :
    Bool :=
  match reevaluated with
  | some fp =>
      args.tsv == ckp.tsv && args.raw_confidence == ckp.raw_confidence &&
        args.skip_exact_matches == ckp.skip_exact_matches && fp == ckp.db_fingerprint
  | none => false

/-- Embedding of the checkpoint-resume decision of `Args::get_output`
(`src/io.rs`), abstracted over the filesystem: `ckp_file` is `none` when
`raxtax.json` is absent, `some none` when it fails to parse, `some (some c)`
when it parses to `c`; `progress_lines` are the lines of the progress file,
`out_lines`/`tsv_lines` the current contents of the primary and TSV outputs.
Returns whether the checkpoint was loaded, and the resulting contents of the
two outputs (the TSV file is only truncated when `--tsv` is set).  In every
other branch a fresh checkpoint is created and the outputs are not
truncated. -/
def get_output (args : ArgsFlags) (ckp_file : Option (Option CkpData))
    (reevaluated : Option ℕ) (progress_lines out_lines tsv_lines : List (List Char)) :
    Bool × List (List Char) × List (List Char) :=
  match ckp_file with
  | some (some ckp) =>
    if args.redo = false ∧ checkpoint_valid args ckp reevaluated = true then
      (true, check_incomplete_output out_lines progress_lines,
        if args.tsv then check_incomplete_output tsv_lines progress_lines
        else tsv_lines)
    else (false, out_lines, tsv_lines)
  | _ => (false, out_lines, tsv_lines)

lemma retained_lines_mem (lines processed : List (List Char))
    (l : List Char) :
    l ∈ retained_lines lines processed ↔
      l ∈ lines ∧ ∃ q rest, split_once '\t' l = some (q, rest) ∧ q ∈ processed := by
  unfold retained_lines
  rw [List.mem_filter]
  constructor
  · rintro ⟨hl, hf⟩
    refine ⟨hl, ?_⟩
    rcases hs : split_once '\t' l with _ | qp
    · rw [hs] at hf
      simp at hf
    · rw [hs] at hf
      simp at hf
      exact ⟨qp.1, qp.2, rfl, hf⟩
  · rintro ⟨hl, q, rest, hs, hq⟩
    refine ⟨hl, ?_⟩
    rw [hs]
    simpa using hq

/-- The truncation behavior of `check_incomplete_output`, stated at the
spec level: when some tab-containing line has an unprocessed first field a
rewrite is triggered — then, if any line with a processed first tab field
exists, the result is exactly those lines; if none survives, the result is
a single empty line (the `writeln!` of the empty join).  When every
tab-containing line is processed, no rewrite is triggered and the file is
left unchanged (in particular, tab-less lines persist). -/
def truncated_to_processed (processed lines result : List (List Char)) : Prop :=
  ((∃ l ∈ lines, ∃ q rest, split_once '\t' l = some (q, rest) ∧ q ∉ processed) →
    ((∃ l ∈ lines, ∃ q rest, split_once '\t' l = some (q, rest) ∧ q ∈ processed) →
      ∀ l, l ∈ result ↔
        l ∈ lines ∧ ∃ q rest, split_once '\t' l = some (q, rest) ∧ q ∈ processed) ∧
    ((∀ l ∈ lines, ∀ q rest, split_once '\t' l = some (q, rest) → q ∉ processed) →
      result = [[]])) ∧
  ((∀ l ∈ lines, ∀ q rest, split_once '\t' l = some (q, rest) → q ∈ processed) →
    result = lines)

lemma check_incomplete_output_cases (lines processed : List (List Char)) :
    truncated_to_processed processed lines (check_incomplete_output lines processed) := by
  unfold truncated_to_processed check_incomplete_output
  dsimp only
  constructor
  · intro hex
    have hany : lines.any (fun line =>
        match split_once '\t' line with
        | some qp => !(decide (qp.1 ∈ processed))
        | none => false) = true := by
      rw [List.any_eq_true]
      obtain ⟨l, hl, q, rest, hs, hq⟩ := hex
      refine ⟨l, hl, ?_⟩
      rw [hs]
      simpa using hq
    rw [if_pos hany]
    constructor
    · intro hsur l
      obtain ⟨l0, hl0, q0, rest0, hs0, hq0⟩ := hsur
      have hmem : l0 ∈ retained_lines lines processed :=
        (retained_lines_mem lines processed l0).2 ⟨hl0, q0, rest0, hs0, hq0⟩
      have hne : retained_lines lines processed ≠ [] := List.ne_nil_of_mem hmem
      rw [if_neg (by simpa [List.isEmpty_iff] using hne)]
      exact retained_lines_mem lines processed l
    · intro hall
      have hret : retained_lines lines processed = [] := by
        rw [List.eq_nil_iff_forall_not_mem]
        intro l hl
        obtain ⟨hl1, q, rest, hs, hq⟩ := (retained_lines_mem lines processed l).1 hl
        exact hall l hl1 q rest hs hq
      rw [if_pos (by simp [hret])]
  · intro hall
    have hany : ¬ lines.any (fun line =>
        match split_once '\t' line with
        | some qp => !(decide (qp.1 ∈ processed))
        | none => false) = true := by
      rw [List.any_eq_true]
      rintro ⟨l, hl, hf⟩
      rcases hs : split_once '\t' l with _ | qp
      · rw [hs] at hf
        simp at hf
      · rw [hs] at hf
        simp at hf
        exact hf (hall l hl qp.1 qp.2 (by rw [hs]))
    rw [if_neg hany]

/-- C9 counterexample: with a valid checkpoint and an empty processed set,
the primary output `["x"]` (one tab-less line, e.g. a partial line after a
crash) is left untouched because no tab-containing line triggers the
rewrite, although no line of it has a processed first tab field — so the
retained lines are not "exactly those lines whose first tab-separated field
is a query label read from the progress file"; and when every line is
dropped the rewrite leaves a single empty line rather than the empty file
that characterization predicts. -/
theorem checkpoint_truncation_counterexample :
    (get_output ⟨false, false, false, false⟩ (some (some ⟨false, false, false, 7⟩))
        (some 7) [] ["x".toList] []).2.1 = ["x".toList] ∧
    retained_lines ["x".toList] [] = [] ∧
    (get_output ⟨false, false, false, false⟩ (some (some ⟨false, false, false, 7⟩))
        (some 7) [] ["q\tA".toList] []).2.1 = [[]] := by
  refine ⟨?_, ?_, ?_⟩ <;> decide

/-- C9 (amended): with `--redo` unset, a present and parsable checkpoint is
loaded precisely when the three output-affecting flags equal the current
run's and the reevaluated database fingerprint matches; in that case the
primary output (likewise the TSV output when `--tsv` is set) is rewritten
only when some tab-containing line has an unprocessed first field — the
rewritten content being exactly the lines whose first tab-separated field
is a processed query label, or a single empty line when none survive —
and is left unchanged otherwise, so tab-less lines persist in that case;
a checkpoint failing the comparison is not loaded: a fresh checkpoint is
used and the outputs are not touched. -/
theorem checkpoint_resume_truncation
    (args : ArgsFlags) (ckp : CkpData) (reevaluated : Option ℕ)
    (progress_lines out_lines tsv_lines : List (List Char))
    (hredo : args.redo = false) :
    (checkpoint_valid args ckp reevaluated = true ↔
      (args.tsv = ckp.tsv ∧ args.raw_confidence = ckp.raw_confidence ∧
        args.skip_exact_matches = ckp.skip_exact_matches ∧
        reevaluated = some ckp.db_fingerprint)) ∧
    (checkpoint_valid args ckp reevaluated = true →
      (get_output args (some (some ckp)) reevaluated progress_lines out_lines
          tsv_lines).1 = true ∧
      truncated_to_processed progress_lines out_lines
        (get_output args (some (some ckp)) reevaluated progress_lines out_lines
          tsv_lines).2.1 ∧
      (args.tsv = true →
        truncated_to_processed progress_lines tsv_lines
          (get_output args (some (some ckp)) reevaluated progress_lines out_lines
            tsv_lines).2.2)) ∧
    (checkpoint_valid args ckp reevaluated = false →
      get_output args (some (some ckp)) reevaluated progress_lines out_lines tsv_lines
        = (false, out_lines, tsv_lines)) := by
  refine ⟨?_, ?_, ?_⟩
  · unfold checkpoint_valid
    rcases reevaluated with _ | fp
    · simp
    · simp only [Bool.and_eq_true, beq_iff_eq, Option.some.injEq]
      tauto
  · intro hv
    unfold get_output
    dsimp only
    rw [if_pos ⟨hredo, hv⟩]
    refine ⟨rfl, ?_, ?_⟩
    · exact check_incomplete_output_cases out_lines progress_lines
    · intro ht
      dsimp only
      rw [if_pos ht]
      exact check_incomplete_output_cases tsv_lines progress_lines
  · intro hf
    unfold get_output
    dsimp only
    rw [if_neg (by simp [hf])]

/-- C9 witness: a run with `--tsv`, matching flags and fingerprint `7`; the
checkpoint validates, the resume branch is taken, and the primary output is
governed by the truncation case analysis with processed label `q1`. -/
theorem checkpoint_resume_truncation_witness :
    checkpoint_valid ⟨true, false, false, false⟩ ⟨true, false, false, 7⟩ (some 7) =
      true ∧
    (get_output ⟨true, false, false, false⟩ (some (some ⟨true, false, false, 7⟩))
        (some 7) ["q1".toList] ["q1\tA".toList, "q2\tB".toList]
        ["q1\tC".toList]).1 = true ∧
    truncated_to_processed ["q1".toList] ["q1\tA".toList, "q2\tB".toList]
      (get_output ⟨true, false, false, false⟩ (some (some ⟨true, false, false, 7⟩))
        (some 7) ["q1".toList] ["q1\tA".toList, "q2\tB".toList]
        ["q1\tC".toList]).2.1 := by
  have hv : checkpoint_valid ⟨true, false, false, false⟩ ⟨true, false, false, 7⟩
      (some 7) = true := by decide
  have h := checkpoint_resume_truncation ⟨true, false, false, false⟩
    ⟨true, false, false, 7⟩ (some 7) ["q1".toList]
    ["q1\tA".toList, "q2\tB".toList] ["q1\tC".toList] rfl
  exact ⟨hv, (h.2.1 hv).1, (h.2.1 hv).2.1⟩
